import Mathlib

/-!
Verification of the yt3 subtitle-to-story pipeline.

Shallow embedding of the core text-processing code:
  * `src/services/subtitles_cleaner.py` (normalize_token,
    collapse_consecutive_repeated_phrases, vtt_to_clean_text),
  * `src/services/prompts.py` (inject_subtitles_into_prompt,
    inject_story_core_into_prompt, fill_story_core_prompt),
  * the repair-application step of `src/services/multipass_pipeline.py`
    (run_multipass, PASS5 block).

Strings are modelled as `List Char`.  Python string methods and the concrete
regular expressions used by the code are translated into executable scanning
functions; each definition carries a note naming the source construct it
embeds.  Whitespace is modelled as the six ASCII whitespace characters that
`str.strip` / `\s` recognise (the source never relies on non-ASCII spaces),
and `str.lower` is modelled by `Char.toLower`.
-/

namespace Yt3

/-- Apostrophe character, written via its code point. -/
def aposChar : Char := Char.ofNat 39

/-- Python whitespace for `str.strip`, `str.split`, and the regex class
`\s`: space, tab, newline, carriage return, vertical tab, form feed. -/
def isPySpace (c : Char) : Bool :=
  c = ' ' || c = '\t' || c = '\n' || c = '\r' || c = '\x0b' || c = '\x0c'

/-- Characters of the regex class `[ \t]` used by
`collapse_consecutive_repeated_phrases`. -/
def spaceTab (c : Char) : Bool :=
  c = ' ' || c = '\t'

/-- Python `str.lstrip()` (ASCII whitespace). -/
def pyLstrip (cs : List Char) : List Char :=
  cs.dropWhile isPySpace

/-- Python `str.rstrip()` (ASCII whitespace). -/
def pyRstrip (cs : List Char) : List Char :=
  (cs.reverse.dropWhile isPySpace).reverse

/-- Python `str.strip()` (ASCII whitespace). -/
def pyStrip (cs : List Char) : List Char :=
  pyRstrip (pyLstrip cs)

/-- Python `str.lower()` (ASCII case mapping). -/
def pyLower (cs : List Char) : List Char :=
  cs.map Char.toLower

/-- Python `str.split(sep)` restricted to the single separator `'\n'`,
as used by `vtt_to_clean_text` (`vtt.split('\n')`).  Keeps empty pieces. -/
def splitLinesGo (acc : List Char) : List Char → List (List Char)
  | [] => [acc.reverse]
  | c :: cs =>
    if c = '\n' then acc.reverse :: splitLinesGo [] cs
    else splitLinesGo (c :: acc) cs

/-- Lines of a text, Python `text.split('\n')`. -/
def splitLines (cs : List Char) : List (List Char) :=
  splitLinesGo [] cs

/-- Number of positions of `cs` at which the pattern `pat` occurs
(as a contiguous substring).  For the non-empty patterns used here this
captures Python substring occurrence; `pat in s` is `countOcc pat s ≠ 0`. -/
def countOcc (pat : List Char) : List Char → Nat
  | [] => 0
  | c :: cs => (if pat.isPrefixOf (c :: cs) then 1 else 0) + countOcc pat cs

/-- Python `pat in s` (substring containment), for non-empty `pat`. -/
def containsSub (cs pat : List Char) : Bool :=
  countOcc pat cs != 0

/-- Python `str.replace(pat, repl)`: replace every occurrence, scanning left
to right, non-overlapping.  Fuelled scan; the wrappers pass
`length + 1` fuel, which suffices because every step consumes at least one
character of the input. -/
def pyReplaceGo (pat repl : List Char) : Nat → List Char → List Char
  | 0, cs => cs
  | _ + 1, [] => []
  | fuel + 1, c :: cs =>
    if pat ≠ [] ∧ pat.isPrefixOf (c :: cs) then
      repl ++ pyReplaceGo pat repl fuel ((c :: cs).drop pat.length)
    else
      c :: pyReplaceGo pat repl fuel cs

/-- Python `cs.replace(pat, repl)`. -/
def pyReplace (cs pat repl : List Char) : List Char :=
  pyReplaceGo pat repl (cs.length + 1) cs

/-- Collapse every maximal run of characters satisfying `p` to a single
space, the effect of `re.sub(r'[ \t]+', ' ', text)` and
`re.sub(r' +', ' ', text)`.  The flag records whether the previous
character was part of a run. -/
def runReplGo (p : Char → Bool) : Bool → List Char → List Char
  | _, [] => []
  | inRun, c :: cs =>
    if p c then
      if inRun then runReplGo p true cs
      else ' ' :: runReplGo p true cs
    else c :: runReplGo p false cs

/-- Effect of `re.sub(r'[ \t]+', ' ', text)`. -/
def collapseSpaceTab (cs : List Char) : List Char :=
  runReplGo spaceTab false cs

/-- Effect of `re.sub(r' +', ' ', text)`. -/
def collapseSpaces (cs : List Char) : List Char :=
  runReplGo (fun c => c = ' ') false cs

/-- Python `str.split()` with no separator: split on runs of whitespace,
dropping empty pieces.  The accumulator holds the current token reversed. -/
def pySplitGo (cur : List Char) : List Char → List (List Char)
  | [] => if cur = [] then [] else [cur.reverse]
  | c :: cs =>
    if isPySpace c then
      if cur = [] then pySplitGo [] cs
      else cur.reverse :: pySplitGo [] cs
    else pySplitGo (c :: cur) cs

/-- Python `text.split()`. -/
def pySplit (cs : List Char) : List (List Char) :=
  pySplitGo [] cs

/-! ## `src/services/subtitles_cleaner.py`: `normalize_token` -/

/-- The character class `[.,!?;:()\[\]{}"\x27"]` stripped from token ends by
`normalize_token` (the class lists the double quote twice; the set is
fourteen characters). -/
def isTokenPunct (c : Char) : Bool :=
  c = '.' || c = ',' || c = '!' || c = '?' || c = ';' || c = ':' ||
  c = '(' || c = ')' || c = '[' || c = ']' || c = '{' || c = '}' ||
  c = '"' || c = aposChar

/-- The literal first argument of the final `replace` call of
`normalize_token`.  In the source, line 27 reads
`normalized.replace(''', "'").replace(''', "'")`; the file is pure ASCII, so
the token `\x27\x27\x27` opens a triple-quoted string and the line parses
(verified against the Python AST) as a single call replacing the fifteen
character string `, "\x27").replace(` with a lone apostrophe. -/
def oddQuotePat : List Char :=
  [',', ' ', '"', aposChar, '"', ')', '.', 'r', 'e', 'p', 'l', 'a', 'c', 'e', '(']

/-- Embedding of `normalize_token`: lowercase, strip the punctuation class
from both ends, then the quote-normalisation replaces.  The two replaces on
line 26 substitute `"` for `"` and are identities (omitted); line 27 is the
odd replace described at `oddQuotePat`. -/
def normalize_token (t : List Char) : List Char :=
  let n := pyLower t
  let n := n.dropWhile isTokenPunct
  let n := (n.reverse.dropWhile isTokenPunct).reverse
  pyReplace n oddQuotePat [aposChar]

/-! ## `subtitles_cleaner.py`: `collapse_consecutive_repeated_phrases` -/

/-- Normalized comparison slice: `norm_tokens[a:a+p]`.  The source keeps a
parallel array `norm_tokens = [normalize_token(t) for t in tokens]` and
deletes the same index ranges from both arrays, so the parallel array always
equals `tokens.map normalize_token` and is recomputed here on the fly. -/
def nSlice (toks : List (List Char)) (a p : Nat) : List (List Char) :=
  ((toks.drop a).take p).map normalize_token

/-- The inner `while` of the repeat finder: starting from `j = i + period`,
extend while `j + period <= len(tokens)` and
`norm_tokens[j:j+period] == norm_tokens[i:i+period]`, stepping by `period`.
Fuelled; the caller passes `length + 1`, enough since `j` advances by
`period ≥ 3` while bounded by the length. -/
def extendRep (p : Nat) (toks : List (List Char)) (i : Nat) : Nat → Nat → Nat
  | 0, j => j
  | fuel + 1, j =>
    if j + p ≤ toks.length ∧ nSlice toks j p = nSlice toks i p then
      extendRep p toks i fuel (j + p)
    else j

/-- The `while i + 2 * period <= len(tokens)` scan of
`collapse_consecutive_repeated_phrases` at a fixed `period`: on a repeat,
delete `tokens[i+period:j]` and re-test the same `i`; otherwise advance `i`.
Fuelled; the wrapper passes `2 * length + 2`, enough because `i` only
increases (bounded by the length) and every deletion removes at least
`period ≥ 3` tokens. -/
def innerScan (p : Nat) : Nat → Nat → List (List Char) → List (List Char)
  | 0, _, toks => toks
  | fuel + 1, i, toks =>
    if i + 2 * p ≤ toks.length then
      if nSlice toks i p = nSlice toks (i + p) p then
        let j := extendRep p toks i (toks.length + 1) (i + p)
        innerScan p fuel i (toks.take (i + p) ++ toks.drop j)
      else innerScan p fuel (i + 1) toks
    else toks

/-- One iteration of `for period in range(18, 2, -1)`: skip when
`period > len(tokens) // 2`, else run the scan from `i = 0`. -/
def stepPeriod (p : Nat) (toks : List (List Char)) : List (List Char) :=
  if p > toks.length / 2 then toks
  else innerScan p (2 * toks.length + 2) 0 toks

/-- The `for period in range(18, 2, -1)` loop, periods `p, p-1, ..., 3`;
`collapse_consecutive_repeated_phrases` runs it with `p = 18`. -/
def runPeriods : Nat → List (List Char) → List (List Char)
  | 0, toks => toks
  | 1, toks => toks
  | 2, toks => toks
  | p + 1, toks => runPeriods p (stepPeriod (p + 1) toks)

/-- Python `' '.join(tokens)`. -/
def joinSpace : List (List Char) → List Char
  | [] => []
  | [t] => t
  | t :: t2 :: ts => t ++ ' ' :: joinSpace (t2 :: ts)

/-- Embedding of `collapse_consecutive_repeated_phrases` on character
lists. -/
def collapsePhrasesL (cs : List Char) : List Char :=
  if cs = [] then cs
  else
    let text := collapseSpaceTab cs
    let tokens := pySplit text
    if tokens.length < 6 then text
    else collapseSpaces (joinSpace (runPeriods 18 tokens))

/-- Embedding of `collapse_consecutive_repeated_phrases` (string level). -/
def collapse_consecutive_repeated_phrases (s : String) : String :=
  String.mk (collapsePhrasesL s.data)

/-! ## `subtitles_cleaner.py`: `vtt_to_clean_text` -/

/-- Decimal digit test, regex `\d` (ASCII). -/
def isDig (c : Char) : Bool :=
  c.isDigit

/-- Consume one `\d{2}:\d{2}:\d{2}[.,]\d{3}` timestamp at the head of the
list, returning the remainder on success. -/
def parseTime : List Char → Option (List Char)
  | d1 :: d2 :: c1 :: d3 :: d4 :: c2 :: d5 :: d6 :: p :: m1 :: m2 :: m3 :: rest =>
    if isDig d1 && isDig d2 && c1 = ':' && isDig d3 && isDig d4 && c2 = ':' &&
       isDig d5 && isDig d6 && (p = '.' || p = ',') &&
       isDig m1 && isDig m2 && isDig m3 then
      some rest
    else none
  | _ => none

/-- Test for
`re.match(r'^\d{2}:\d{2}:\d{2}[.,]\d{3}\s*-->\s*\d{2}:\d{2}:\d{2}[.,]\d{3}', line)`,
a prefix match on the raw line. -/
def isTimestampLine (cs : List Char) : Bool :=
  match parseTime cs with
  | none => false
  | some r1 =>
    match r1.dropWhile isPySpace with
    | '-' :: '-' :: '>' :: r2 => (parseTime (r2.dropWhile isPySpace)).isSome
    | _ => false

/-- Test for `re.match(r'^\d+$', line)`: the line is a non-empty digit
string (lines carry no newline, so the `$` anchor is plain end). -/
def isAllDigits (cs : List Char) : Bool :=
  cs ≠ [] && cs.all isDig

/-- Given the characters after a `<`, skip a `<[^>]+>` tag: the first
character must exist and not be `>`, and a closing `>` must follow; returns
the remainder after the closing `>`. -/
def afterGt : List Char → Option (List Char)
  | [] => none
  | c :: cs => if c = '>' then some cs else afterGt cs

/-- Effect of `re.sub(r'<[^>]+>', '', line)`: remove every `<...>` span
with non-empty body, scanning left to right.  Fuelled; wrappers pass
`length + 1` (every step consumes at least one character). -/
def stripTagsGo : Nat → List Char → List Char
  | 0, cs => cs
  | _ + 1, [] => []
  | fuel + 1, c :: cs =>
    if c = '<' then
      match cs with
      | [] => [c]
      | d :: ds =>
        if d = '>' then c :: stripTagsGo fuel cs
        else
          match afterGt ds with
          | some rest => stripTagsGo fuel rest
          | none => c :: stripTagsGo fuel cs
    else c :: stripTagsGo fuel cs

/-- Remove HTML-like tags from a line. -/
def stripTags (cs : List Char) : List Char :=
  stripTagsGo (cs.length + 1) cs

/-- Index of the last `:` inside a list, if any. -/
def lastColonIdx (run : List Char) : Option Nat :=
  match run.reverse.findIdx? (fun c => c = ':') with
  | some k => some (run.length - 1 - k)
  | none => none

/-- Effect of `re.sub(r'^\S+:\s*', '', line)`: if the line starts with a
non-space run containing a `:` at index `j ≥ 1` (the greedy `\S+` picks the
last such `:` inside the leading non-space run), drop everything through
that `:` and the following whitespace. -/
def cueStrip (cs : List Char) : List Char :=
  let run := cs.takeWhile (fun c => !(isPySpace c))
  match lastColonIdx run with
  | some j => if 1 ≤ j then (cs.drop (j + 1)).dropWhile isPySpace else cs
  | none => cs

/-- Label constants checked by the structural-strip pass. -/
def webvttLab : List Char := "WEBVTT".data

/-- The `NOTE` metadata label. -/
def noteLab : List Char := "NOTE".data

/-- The `STYLE` metadata label. -/
def styleLab : List Char := "STYLE".data

/-- First pass of `vtt_to_clean_text` (source lines 121-152): per-line
structural strip in source order — WEBVTT header, blank, timestamp (tested
on the raw line), bare cue number, NOTE/STYLE, then tag removal, cue-settings
strip and final strip, keeping non-empty results. -/
def passOne : List (List Char) → List (List Char)
  | [] => []
  | line :: ls =>
    if webvttLab.isPrefixOf (pyStrip line) then passOne ls
    else if pyStrip line = [] then passOne ls
    else if isTimestampLine line then passOne ls
    else if isAllDigits (pyStrip line) then passOne ls
    else if noteLab.isPrefixOf (pyStrip line) || styleLab.isPrefixOf (pyStrip line) then
      passOne ls
    else
      let l2 := pyStrip (cueStrip (stripTags line))
      if l2 = [] then passOne ls else l2 :: passOne ls

/-- Consecutive-duplicate-line pass (source lines 154-177).  `prev` is the
normalized form of the last line that opened a run; `cnt` counts repeats of
it seen so far.  A repeat is appended unless `cnt + 1 > 2`. -/
def dedupeLinesGo (prev : Option (List Char)) (cnt : Nat) :
    List (List Char) → List (List Char)
  | [] => []
  | l :: ls =>
    if l = [] then dedupeLinesGo prev cnt ls
    else if some (pyLower (pyStrip l)) = prev then
      if cnt + 1 > 2 then dedupeLinesGo prev (cnt + 1) ls
      else l :: dedupeLinesGo prev (cnt + 1) ls
    else l :: dedupeLinesGo (some (pyLower (pyStrip l))) 0 ls

/-- The consecutive-duplicate-line stage as run by `vtt_to_clean_text`. -/
def dedupeLines (ls : List (List Char)) : List (List Char) :=
  dedupeLinesGo none 0 ls

/-- Test for `re.search(r'[.!?]\s*$', part)`: the last non-whitespace
character is sentence-ending punctuation. -/
def endsSentencePunct (cs : List Char) : Bool :=
  match cs.reverse.dropWhile isPySpace with
  | [] => false
  | c :: _ => c = '.' || c = '!' || c = '?'

/-- Continuation-joining pass (source lines 181-190): append a line to the
previous part with a space unless that part ends in `.`, `!` or `?`.  The
accumulator is reversed, with the most recent part first. -/
def joinGo (acc : List (List Char)) : List (List Char) → List (List Char)
  | [] => acc.reverse
  | l :: ls =>
    if l = [] then joinGo acc ls
    else
      match acc with
      | [] => joinGo [l] ls
      | p :: rest =>
        if endsSentencePunct p then joinGo (l :: p :: rest) ls
        else joinGo ((p ++ ' ' :: l) :: rest) ls

/-- Index of the last `'\n'` in a list, if any. -/
def lastNlIdx (ws : List Char) : Option Nat :=
  match ws.reverse.findIdx? (fun c => c = '\n') with
  | some k => some (ws.length - 1 - k)
  | none => none

/-- Given the characters after a leading `'\n'`, locate the last `'\n'` of
the maximal whitespace run that follows; `re.sub(r'\n\s*\n+', '\n', s)`
consumes through that character.  Returns the remainder after it when the
run holds at least one more newline. -/
def nlRunRest (cs : List Char) : Option (List Char) :=
  let ws := cs.takeWhile isPySpace
  match lastNlIdx ws with
  | some m => some (cs.drop (m + 1))
  | none => none

/-- Effect of `re.sub(r'\n\s*\n+', '\n', result)`; fuelled scan, wrappers
pass `length + 1`. -/
def collapseNlGo : Nat → List Char → List Char
  | 0, cs => cs
  | _ + 1, [] => []
  | fuel + 1, c :: cs =>
    if c = '\n' then
      match nlRunRest cs with
      | some rest => '\n' :: collapseNlGo fuel rest
      | none => c :: collapseNlGo fuel cs
    else c :: collapseNlGo fuel cs

/-- Collapse blank-line runs to a single newline. -/
def collapseNl (cs : List Char) : List Char :=
  collapseNlGo (cs.length + 1) cs

/-- Sentence chunking (source lines 203-211): `re.split(r'([.!?]\s+)', s)`
followed by re-attaching each separator to the piece before it.  A
separator is a `.`/`!`/`?` immediately followed by at least one whitespace
character; the separator greedily takes the whole whitespace run.  The
final piece (possibly empty) is kept as its own sentence.  Fuelled scan,
wrappers pass `length + 1`. -/
def sentenceSplitGo (cur : List Char) : Nat → List Char → List (List Char)
  | 0, cs => [cur.reverse ++ cs]
  | _ + 1, [] => [cur.reverse]
  | fuel + 1, c :: cs =>
    if (c = '.' || c = '!' || c = '?') &&
       (match cs with | [] => false | d :: _ => isPySpace d) then
      let ws := cs.takeWhile isPySpace
      (cur.reverse ++ c :: ws) :: sentenceSplitGo [] fuel (cs.drop ws.length)
    else sentenceSplitGo (c :: cur) fuel cs

/-- Sentences of a text, with separators attached. -/
def sentenceSplit (cs : List Char) : List (List Char) :=
  sentenceSplitGo [] (cs.length + 1) cs

/-- Consecutive-duplicate-sentence pass (source lines 214-220): keep a
sentence when its normalized form is non-empty and differs from the last
kept one. -/
def dedupeSentencesGo (prev : Option (List Char)) :
    List (List Char) → List (List Char)
  | [] => []
  | s :: ss =>
    let n := pyLower (pyStrip s)
    if n ≠ [] ∧ some n ≠ prev then s :: dedupeSentencesGo (some n) ss
    else dedupeSentencesGo prev ss

/-- Fallback extraction (source lines 236-250): strip each line first, skip
structural lines, remove tags and keep stripped lines longer than two
characters.  The cue-settings strip is not applied here. -/
def fallbackPass : List (List Char) → List (List Char)
  | [] => []
  | line :: ls =>
    let l := pyStrip line
    if l = [] then fallbackPass ls
    else if webvttLab.isPrefixOf l || noteLab.isPrefixOf l || styleLab.isPrefixOf l then
      fallbackPass ls
    else if isTimestampLine l then fallbackPass ls
    else if isAllDigits l then fallbackPass ls
    else
      let l2 := pyStrip (stripTags l)
      if l2 ≠ [] ∧ 2 < l2.length then l2 :: fallbackPass ls
      else fallbackPass ls

/-- Python `str.rfind(ch)`: index of the last occurrence, `-1` if absent. -/
def rlastIdx (ch : Char) : List Char → Option Nat
  | [] => none
  | c :: cs =>
    match rlastIdx ch cs with
    | some k => some (k + 1)
    | none => if c = ch then some 0 else none

/-- Python `cs.rfind(ch)` as an integer. -/
def pyRfindChar (cs : List Char) (ch : Char) : Int :=
  match rlastIdx ch cs with
  | some k => (k : Int)
  | none => -1

/-- The `boundary` of the length-capping step (source lines 264-269): the
largest of the last indices of `.`, `!`, `?` and newline in the truncated
text, `-1` when none occurs. -/
def capBoundary (t : List Char) : Int :=
  max (max (max (pyRfindChar t '.') (pyRfindChar t '!')) (pyRfindChar t '?'))
      (pyRfindChar t '\n')

/-- Length-capping step (source lines 259-273), with the cap as a
parameter `m` (the source applies it at the constant
`MAX_SUBTITLE_CHARS`).  The float comparison `boundary > m * 0.8` is
modelled exactly as `5 * boundary > 4 * m`; for the configured cap
`200000` (and any `m` divisible by 5) the float product `m * 0.8` is
exact, so the two comparisons agree. -/
def capAt (m : Nat) (cs : List Char) : List Char :=
  if m < cs.length then
    if 5 * capBoundary (cs.take m) > 4 * (m : Int) then
      (cs.take m).take ((capBoundary (cs.take m)).toNat + 1)
    else cs.take m
  else cs

/-- The configured cap, `src/core/config.py` line 24. -/
def MAX_SUBTITLE_CHARS : Nat := 200000

/-- Result of `vtt_to_clean_text` up to the point where
`clean_chars_before_dedupe` is measured (source lines 118-228): structural
strip, line dedupe, continuation joining, whitespace normalisation,
sentence dedupe, strip. -/
def vttPre (vtt : List Char) : List Char :=
  let cleaned := passOne (splitLines vtt)
  let dd := dedupeLines cleaned
  let parts := joinGo [] dd
  let r := List.intercalate ['\n'] parts
  let r := collapseSpaces r
  let r := collapseNl r
  let ds := dedupeSentencesGo none (sentenceSplit r)
  pyStrip ds.flatten

/-- Result after phrase-level dedupe and the empty-result fallback
(source lines 231-257), before the length cap. -/
def vttBody (vtt : List Char) : List Char :=
  let r := collapsePhrasesL (vttPre vtt)
  if r = [] ∧ vtt ≠ [] then
    let fb := fallbackPass (splitLines vtt)
    if fb ≠ [] then
      collapsePhrasesL (pyStrip (collapseSpaces (List.intercalate [' '] fb)))
    else r
  else r

/-- Final clean text of `vtt_to_clean_text` for non-empty input. -/
def vttTextL (vtt : List Char) : List Char :=
  if vtt = [] then [] else capAt MAX_SUBTITLE_CHARS (vttBody vtt)

/-- Statistics record returned when `return_stats=True`.  The source
computes `dedupe_ratio` as a float division; it is modelled as the exact
rational. -/
structure VttStats where
  clean_chars_before_dedupe : Nat
  clean_chars_after_dedupe : Nat
  dedupe_ratio : Rat
  removed_chars : Int
deriving DecidableEq, Repr

/-- Return type of `vtt_to_clean_text`, mirroring the declared Python return type
`tuple[str, dict] | str`. -/
inductive VttResult where
  | text (s : String)
  | withStats (s : String) (st : VttStats)
deriving DecidableEq, Repr

/-- Embedding of `vtt_to_clean_text`.  Note that on empty input the source
returns the bare string `""` before ever consulting `return_stats`. -/
def vtt_to_clean_text (vtt : String) (return_stats : Bool) : VttResult :=
  if vtt.data = [] then .text "" else
  let before := (vttPre vtt.data).length
  let result := capAt MAX_SUBTITLE_CHARS (vttBody vtt.data)
  if return_stats then
    .withStats (String.mk result)
      { clean_chars_before_dedupe := before
        clean_chars_after_dedupe := result.length
        dedupe_ratio := if before ≠ 0 then (result.length : Rat) / (before : Rat) else 1
        removed_chars := (before : Int) - (result.length : Int) }
  else .text (String.mk result)

/-- The clean text of `vtt_to_clean_text(s)` (the `return_stats=False`
call used throughout the app). -/
def vttClean (s : String) : String :=
  String.mk (vttTextL s.data)

/-! ## `src/services/prompts.py`: injection

The block-replacement regexes are embedded as explicit scans.  Two facts
about the Python patterns (validated against the `re` engine) drive the
translation:

* In `(LABEL:\s*)(.*?)(?=\n[A-Z][A-Z\s]{3,}:|$)` under
  `re.MULTILINE | re.DOTALL`, the `$` alternative of the lookahead matches
  before every newline, so the lookahead holds exactly at end of text or at
  a newline; the header alternative is subsumed.  The greedy `\s*` takes
  the maximal whitespace run after the label, and the lazy `.*?` then stops
  at the first newline-or-end, so a match spans the label, the whitespace
  run and the rest of that line, and `re.sub` (no count) rewrites every
  label occurrence reachable this way.

* In `(ORIGINAL_STORY:\s*)(.*?)(\nCORE OBJECTIVE\b)` the greedy `\s*`
  first takes the maximal run `w`; the lazy `.*?` then finds the earliest
  terminator at or beyond that point; if none exists, backtracking gives
  one whitespace character back, which can only help when the last
  whitespace character is the `\n` of an immediately following terminator.
-/

/-- The placeholder `{{SUBTITLES}}`. -/
def phSubs : List Char := "\x7b\x7bSUBTITLES\x7d\x7d".data

/-- The placeholder `{{STORY_CORE}}`. -/
def phCore : List Char := "\x7b\x7bSTORY_CORE\x7d\x7d".data

/-- The label `ORIGINAL_STORY:`. -/
def labelOS : List Char := "ORIGINAL_STORY:".data

/-- The label `STORY_CORE:`. -/
def labelSC : List Char := "STORY_CORE:".data

/-- The section title `CORE OBJECTIVE`. -/
def coreObj : List Char := "CORE OBJECTIVE".data

/-- The terminator `\nCORE OBJECTIVE` of the strict fill pattern. -/
def termCO : List Char := '\n' :: coreObj

/-- The anchor `INPUT VARIABLES`. -/
def inputVarsLab : List Char := "INPUT VARIABLES".data

/-- Regex `\w` (ASCII): letter, digit or underscore. -/
def isWordChar (c : Char) : Bool :=
  c.isAlphanum || c = '_'

/-- Does `cs` start with `\nCORE OBJECTIVE` followed by a word boundary? -/
def termAt (cs : List Char) : Bool :=
  termCO.isPrefixOf cs &&
  (match cs.drop termCO.length with
   | [] => true
   | c :: _ => !(isWordChar c))

/-- Earliest offset at which the terminator occurs. -/
def findTerm : List Char → Option Nat
  | [] => none
  | c :: cs =>
    if termAt (c :: cs) then some 0
    else (findTerm cs).map (· + 1)

/-- Replacement text produced by `replace_func` in `fill_story_core_prompt`
and the first branch of `inject_subtitles_into_prompt`:
`ORIGINAL_STORY:\n{v}\n\nCORE OBJECTIVE` (the leading group rstripped to the bare
label, the trailing group lstripped to the bare title). -/
def fillRepl (v : List Char) : List Char :=
  labelOS ++ '\n' :: '{' :: (v ++ '}' :: '\n' :: '\n' :: coreObj)

/-- Scan of `re.sub(r'(ORIGINAL_STORY:\s*)(.*?)(\nCORE OBJECTIVE\b)', ...)`
replacing every match, leftmost first.  At a label occurrence, `w` is the
maximal whitespace run after the label; the match needs a terminator at or
beyond the run (earliest wins), or — giving one whitespace character back —
exactly at the last character of the run.  Fuelled; wrappers pass
`length + 1` (each step consumes at least one character). -/
def subOsCoGo (v : List Char) : Nat → List Char → List Char
  | 0, cs => cs
  | _ + 1, [] => []
  | fuel + 1, c :: cs =>
    if labelOS.isPrefixOf (c :: cs) then
      let afterLab := (c :: cs).drop labelOS.length
      let w := (afterLab.takeWhile isPySpace).length
      let afterWs := afterLab.drop w
      match findTerm afterWs with
      | some q => fillRepl v ++ subOsCoGo v fuel (afterWs.drop (q + termCO.length))
      | none =>
        if 1 ≤ w ∧ termAt (afterLab.drop (w - 1)) then
          fillRepl v ++ subOsCoGo v fuel ((afterLab.drop (w - 1)).drop termCO.length)
        else c :: subOsCoGo v fuel cs
    else c :: subOsCoGo v fuel cs

/-- Match existence for the strict fill pattern: mirrors the branch
structure of `subOsCoGo`. -/
def hasOsCoMatch : List Char → Bool
  | [] => false
  | c :: cs =>
    if labelOS.isPrefixOf (c :: cs) then
      let afterLab := (c :: cs).drop labelOS.length
      let w := (afterLab.takeWhile isPySpace).length
      let afterWs := afterLab.drop w
      if (findTerm afterWs).isSome then true
      else if 1 ≤ w ∧ termAt (afterLab.drop (w - 1)) then true
      else hasOsCoMatch cs
    else hasOsCoMatch cs

/-- Replacement text of the `STORY_CORE:` block rewrite,
`STORY_CORE:\n{v}\n\n` (the `replace_func` return value; its leading group
rstripped to the bare label). -/
def scRepl (v : List Char) : List Char :=
  labelSC ++ '\n' :: '{' :: (v ++ ['}', '\n', '\n'])

/-- Scan of
`re.sub(r'(STORY_CORE:\s*)(.*?)(?=\n[A-Z][A-Z\s]{3,}:|$)', replace_func, ...)`
under `MULTILINE | DOTALL`: every label occurrence matches, the match
spans the label, the following whitespace run and the rest of that line,
and scanning resumes at the newline (the lookahead consumes nothing).
Fuelled; wrappers pass `length + 1`. -/
def subScGo (v : List Char) : Nat → List Char → List Char
  | 0, cs => cs
  | _ + 1, [] => []
  | fuel + 1, c :: cs =>
    if labelSC.isPrefixOf (c :: cs) then
      let afterWs := ((c :: cs).drop labelSC.length).dropWhile isPySpace
      let rest := afterWs.dropWhile (fun d => d ≠ '\n')
      scRepl v ++ subScGo v fuel rest
    else c :: subScGo v fuel cs

/-- Scan of the fallback pattern
`re.sub(r'(ORIGINAL_STORY:\s*)(.*?)(?=\n[A-Z][A-Z\s]{3,}:|$)', rf"\1\n{{{v}}}\n\n", ...)`
of `inject_subtitles_into_prompt`.  Unlike the `STORY_CORE:` rewrite, the
replacement is a template whose `\1` is the unstripped first group (label
plus whitespace run).  Escape processing of backslashes inside the injected
value is not modelled; no theorem uses this path with a backslash value.
Fuelled; wrappers pass `length + 1`. -/
def subOs2Go (v : List Char) : Nat → List Char → List Char
  | 0, cs => cs
  | _ + 1, [] => []
  | fuel + 1, c :: cs =>
    if labelOS.isPrefixOf (c :: cs) then
      let afterLab := (c :: cs).drop labelOS.length
      let ws := afterLab.takeWhile isPySpace
      let afterWs := afterLab.drop ws.length
      let rest := afterWs.dropWhile (fun d => d ≠ '\n')
      (labelOS ++ ws ++ '\n' :: '{' :: (v ++ ['}', '\n', '\n'])) ++ subOs2Go v fuel rest
    else c :: subOs2Go v fuel cs

/-- Scan of
`re.sub(r'(\nCORE OBJECTIVE\b)', f"\nORIGINAL_STORY:\n{{{v}}}\n\n\\1", prompt, count=1)`:
insert the new block before the first terminator occurrence (the matched
group is re-emitted unchanged).  Fuelled; wrappers pass `length + 1`. -/
def insBeforeCoGo (v : List Char) : Nat → List Char → List Char
  | 0, cs => cs
  | _ + 1, [] => []
  | fuel + 1, c :: cs =>
    if termAt (c :: cs) then
      ('\n' :: labelOS ++ '\n' :: '{' :: (v ++ ['}', '\n', '\n'])) ++ (c :: cs)
    else c :: insBeforeCoGo v fuel cs

/-- Scan of
`re.sub(r'(INPUT VARIABLES[^\n]*\n)', f"\\1STORY_CORE:\n{{{v}}}\n\n", prompt, count=1)`:
after the first `INPUT VARIABLES` line that ends in a newline, insert the
new block.  Fuelled; wrappers pass `length + 1`. -/
def insAfterIvGo (v : List Char) : Nat → List Char → List Char
  | 0, cs => cs
  | _ + 1, [] => []
  | fuel + 1, c :: cs =>
    if inputVarsLab.isPrefixOf (c :: cs) then
      let afterLab := (c :: cs).drop inputVarsLab.length
      let lineRest := afterLab.takeWhile (fun d => d ≠ '\n')
      match afterLab.drop lineRest.length with
      | '\n' :: rest =>
        inputVarsLab ++ lineRest ++ '\n' ::
          (labelSC ++ '\n' :: '{' :: (v ++ ['}', '\n', '\n'])) ++ rest
      | _ => c :: insAfterIvGo v fuel cs
    else c :: insAfterIvGo v fuel cs

/-- Embedding of `inject_subtitles_into_prompt` on character lists,
following the source branch order: blank guard, `{{SUBTITLES}}`
placeholder, `ORIGINAL_STORY:` block rewrite (strict pattern, then
lookahead fallback pattern), insertion before `CORE OBJECTIVE`, append at
the end. -/
def injectSubsL (prompt subs : List Char) : List Char :=
  if pyStrip subs = [] then prompt
  else
    let v := pyRstrip subs
    if containsSub prompt phSubs then pyReplace prompt phSubs v
    else
      let afterBlock :=
        if containsSub prompt labelOS then
          let r1 := subOsCoGo v (prompt.length + 1) prompt
          if r1 ≠ prompt then some r1
          else
            let r2 := subOs2Go v (prompt.length + 1) prompt
            if r2 ≠ prompt then some r2 else none
        else none
      match afterBlock with
      | some r => r
      | none =>
        if containsSub prompt coreObj then insBeforeCoGo v (prompt.length + 1) prompt
        else prompt ++ '\n' :: '\n' :: labelOS ++ '\n' :: '{' :: (v ++ ['}'])

/-- Embedding of `inject_story_core_into_prompt` on character lists:
blank guard, `{{STORY_CORE}}` placeholder, `STORY_CORE:` block rewrite,
insertion after `INPUT VARIABLES`, prepend at the top. -/
def injectCoreL (prompt story : List Char) : List Char :=
  if pyStrip story = [] then prompt
  else
    let v := pyRstrip story
    if containsSub prompt phCore then pyReplace prompt phCore v
    else
      let afterBlock :=
        if containsSub prompt labelSC then
          let r := subScGo v (prompt.length + 1) prompt
          if r ≠ prompt then some r else none
        else none
      match afterBlock with
      | some r => r
      | none =>
        if containsSub prompt inputVarsLab then insAfterIvGo v (prompt.length + 1) prompt
        else (labelSC ++ '\n' :: '{' :: (v ++ ['}', '\n', '\n'])) ++ prompt

/-- Embedding of `inject_subtitles_into_prompt` (string level). -/
def inject_subtitles_into_prompt (prompt subtitles : String) : String :=
  String.mk (injectSubsL prompt.data subtitles.data)

/-- Embedding of `inject_story_core_into_prompt` (string level). -/
def inject_story_core_into_prompt (prompt story : String) : String :=
  String.mk (injectCoreL prompt.data story.data)

/-- Error outcomes of `fill_story_core_prompt`, one per `ValueError`
message of the source (empty story; template without the label; template
with the label but without the terminator title; both present but the
pattern still unmatched). -/
inductive FillErr where
  | emptyStory
  | missingLabel
  | missingTerminator
  | noBlock
deriving DecidableEq, Repr

/-- Embedding of `fill_story_core_prompt` on character lists: blank-story
guard, the strict-pattern substitution, and the `result == template`
no-match analysis choosing the specific error, in source order. -/
def fillCoreL (template story : List Char) : Except FillErr (List Char) :=
  if pyStrip story = [] then .error .emptyStory
  else
    let v := pyRstrip story
    let result := subOsCoGo v (template.length + 1) template
    if result = template then
      if containsSub template labelOS = false then .error .missingLabel
      else if containsSub template coreObj = false then .error .missingTerminator
      else .error .noBlock
    else .ok result

/-- Embedding of `fill_story_core_prompt` (string level). -/
def fill_story_core_prompt (template story : String) : Except FillErr String :=
  (fillCoreL template.data story.data).map String.mk

deriving instance DecidableEq for Except

/-! ## `src/services/multipass_pipeline.py`: PASS5 repair application
(source lines 355-367) -/

/-- A narration slide, the `{"Text": ..., "Prompt": ...}` records held in
`results["story_slides"]`. -/
structure Slide where
  slideText : List Char
  slidePrompt : List Char
deriving DecidableEq, Repr

/-- One element of `repaired_slides`: the JSON fields accessed by the
source via `.get`, each possibly absent. -/
structure RepairEntry where
  slide : Option Int
  repairText : Option (List Char)
  repairPrompt : Option (List Char)
deriving DecidableEq, Repr

/-- The slide written by a repair,
`{"Text": repaired.get("Text", ""), "Prompt": repaired.get("Prompt", "")}`. -/
def mkRepairSlide (r : RepairEntry) : Slide :=
  ⟨r.repairText.getD [], r.repairPrompt.getD []⟩

/-- Guard of the loop body:
`if slide_num and 0 < slide_num <= len(slides)` — `slide_num` must be
present and truthy (non-zero) and within `1..n`. -/
def repairInRange (n : Nat) (r : RepairEntry) : Bool :=
  match r.slide with
  | none => false
  | some k => k ≠ 0 && 0 < k && k ≤ (n : Int)

/-- One iteration of the repair loop: overwrite `slides[slide_num - 1]`
when the guard holds, else leave the list unchanged. -/
def applyOne (slides : List Slide) (r : RepairEntry) : List Slide :=
  if repairInRange slides.length r then
    match r.slide with
    | some k => slides.set (k.toNat - 1) (mkRepairSlide r)
    | none => slides
  else slides

/-- The `for repaired in pass5_result["repaired_slides"]` loop. -/
def applyRepairs (slides : List Slide) : List RepairEntry → List Slide
  | [] => slides
  | r :: rs => applyRepairs (applyOne slides r) rs

/-- The guarded repair application after PASS5:
`if pass5_result.get("status") == "fail" and pass5_result.get("repaired_slides")`
(a list is truthy when non-empty). -/
def applyQualityRepairs (status : List Char) (repaired : List RepairEntry)
    (slides : List Slide) : List Slide :=
  if status = "fail".data ∧ repaired ≠ [] then applyRepairs slides repaired
  else slides

/-! ## Evaluation theorems and counterexamples -/

set_option maxRecDepth 8000

/-- C4: the code keeps THREE identical consecutive caption lines, not two.
The dedupe loop increments `repeat_count` before testing `> 2`, so the
first line and two repeats all survive, contradicting the adjacent source
comments (`keep max 2`, `Skip third+ occurrence`) and the spec.  Evaluating
the embedding at the spec input shows three occurrences of `hello`. -/
theorem c4_failing_eval :
    vttClean "hello\nhello\nhello" = "hello hello hello" ∧
    countOcc "hello".data (vttClean "hello\nhello\nhello").data = 3 := by
  constructor
  · decide
  · decide

/-- C5: phrase-collapse correctness on the spec input: the 3-token phrase
`the cat sat` repeated three times collapses to a single instance. -/
theorem c5_phrase_collapse :
    collapse_consecutive_repeated_phrases
        "the cat sat the cat sat the cat sat on the mat" =
      "the cat sat on the mat" := by
  decide

/-- C9: on empty input with `return_stats=True` the source returns the bare
string `""` (the `if not vtt: return ""` guard runs before `return_stats`
is consulted), not the `(text, stats)` pair the claim and the function
docstring promise; callers that unpack the pair fail. -/
theorem c9_empty_input_eval :
    vtt_to_clean_text "" true = VttResult.text "" ∧
    ∀ st : VttStats, vtt_to_clean_text "" true ≠ VttResult.withStats "" st := by
  refine ⟨rfl, fun st h => ?_⟩
  rw [show vtt_to_clean_text "" true = VttResult.text "" from rfl] at h
  exact VttResult.noConfusion h

/-- C2 counterexample: the normalizer is not idempotent.  The cue-settings
strip `re.sub(r'^\S+:\s*', '', line)` removes one `word:` prefix per pass,
so `a: b: hello.` cleans to `b: hello.`, which re-cleans to `hello.`. -/
theorem c2_counterexample :
    vttClean (vttClean "a: b: hello.") ≠ vttClean "a: b: hello." := by
  decide

/-- C1 counterexample: injection is not idempotent for non-empty values.
For a template whose only variable site is the explicit placeholder, the
first injection consumes the placeholder and the second run falls through
to block insertion, appending (subtitles) or prepending (story core) a new
labeled block. -/
theorem c1_counterexample :
    inject_subtitles_into_prompt
        (inject_subtitles_into_prompt "Hello \x7b\x7bSUBTITLES\x7d\x7d" "world") "world" ≠
      inject_subtitles_into_prompt "Hello \x7b\x7bSUBTITLES\x7d\x7d" "world" ∧
    inject_story_core_into_prompt
        (inject_story_core_into_prompt "Hello \x7b\x7bSTORY_CORE\x7d\x7d" "world") "world" ≠
      inject_story_core_into_prompt "Hello \x7b\x7bSTORY_CORE\x7d\x7d" "world" := by
  constructor
  · decide
  · decide

/-- C3 counterexample: with two labeled blocks in the template, `re.sub`
(called without `count`) rewrites both, so the output still has two
labeled blocks and the second one is affected as well — against both parts
of the claim. -/
theorem c3_counterexample :
    countOcc labelSC
        (inject_story_core_into_prompt "STORY_CORE:\na\nSTORY_CORE:\nb" "new").data = 2 ∧
    inject_story_core_into_prompt "STORY_CORE:\na\nSTORY_CORE:\nb" "new" =
      "STORY_CORE:\n\x7bnew\x7d\n\n\nSTORY_CORE:\n\x7bnew\x7d\n\n" := by
  constructor
  · decide
  · decide

/-! ## C1 amended: injection with a blank value is the identity -/

/-- C1 (amended): for a value that is empty or whitespace-only the blank
guard of both injectors returns the template unchanged, so injection is the
identity and in particular idempotent; the counterexample shows idempotence
fails for ordinary non-blank values. -/
theorem c1_blank_value_identity (t v : String) (h : pyStrip v.data = []) :
    inject_subtitles_into_prompt t v = t ∧
    inject_story_core_into_prompt t v = t ∧
    inject_subtitles_into_prompt (inject_subtitles_into_prompt t v) v =
      inject_subtitles_into_prompt t v ∧
    inject_story_core_into_prompt (inject_story_core_into_prompt t v) v =
      inject_story_core_into_prompt t v := by
  have hs : inject_subtitles_into_prompt t v = t := by
    simp [inject_subtitles_into_prompt, injectSubsL, h]
  have hc : inject_story_core_into_prompt t v = t := by
    simp [inject_story_core_into_prompt, injectCoreL, h]
  refine ⟨hs, hc, ?_, ?_⟩
  · rw [hs]; exact hs
  · rw [hc]; exact hc

/-- Witness for `c1_blank_value_identity` at the whitespace-only
(non-empty) value `" "`. -/
theorem c1_blank_value_identity_witness :
    pyStrip (" " : String).data = [] ∧
    inject_subtitles_into_prompt "x" " " = "x" :=
  ⟨by decide, (c1_blank_value_identity "x" " " (by decide)).1⟩

/-! ## C2 amended: the consecutive-line dedupe stage is idempotent -/

/-- Running the line-dedupe scan over its own output is the identity, for
any starting state whose repeat counter is no larger than the counter of
the first run. -/
theorem dedupeLinesGo_twice (ls : List (List Char)) :
    ∀ (prev : Option (List Char)) (cnt cnt' : Nat), cnt ≤ cnt' →
      dedupeLinesGo prev cnt (dedupeLinesGo prev cnt' ls) =
        dedupeLinesGo prev cnt' ls := by
  induction ls with
  | nil => intro prev cnt cnt' _; rfl
  | cons l ls ih =>
    intro prev cnt cnt' h
    by_cases hl : l = []
    · simp only [dedupeLinesGo, if_pos hl]
      exact ih prev cnt cnt' h
    · by_cases hp : some (pyLower (pyStrip l)) = prev
      · by_cases hc : cnt' + 1 > 2
        · simp only [dedupeLinesGo, if_neg hl, if_pos hp, if_pos hc]
          exact ih prev cnt (cnt' + 1) (by omega)
        · have hc2 : ¬ cnt + 1 > 2 := by omega
          simp only [dedupeLinesGo, if_neg hl, if_pos hp, if_neg hc, if_neg hc2]
          rw [ih prev (cnt + 1) (cnt' + 1) (by omega)]
      · simp only [dedupeLinesGo, if_neg hl, if_neg hp]
        rw [ih (some (pyLower (pyStrip l))) 0 0 (Nat.le_refl 0)]

/-- C2 (amended): the consecutive-line dedupe stage of the normalizer is
idempotent — a deduplicated line list is a fixed point of the stage, which
is the fixed-point property the spec sentence appeals to.  The full
normalizer is not idempotent (`c2_counterexample`). -/
theorem c2_line_dedupe_idempotent (ls : List (List Char)) :
    dedupeLines (dedupeLines ls) = dedupeLines ls :=
  dedupeLinesGo_twice ls none 0 0 (Nat.le_refl 0)

/-! ## C6: length cap -/

/-- The last-occurrence index is a valid index. -/
theorem rlastIdx_lt {ch : Char} :
    ∀ {cs : List Char} {k : Nat}, rlastIdx ch cs = some k → k < cs.length := by
  intro cs
  induction cs with
  | nil => intro k h; exact absurd h (by simp [rlastIdx])
  | cons c cs ih =>
    intro k h
    unfold rlastIdx at h
    cases hr : rlastIdx ch cs with
    | some j =>
      rw [hr] at h
      cases h
      have := ih hr
      simp only [List.length_cons]
      omega
    | none =>
      rw [hr] at h
      by_cases hc : c = ch
      · rw [if_pos hc] at h
        cases h
        simp
      · rw [if_neg hc] at h
        exact absurd h (by simp)

/-- Python `rfind` returns an index below the length. -/
theorem pyRfindChar_lt (cs : List Char) (ch : Char) :
    pyRfindChar cs ch < (cs.length : Int) := by
  unfold pyRfindChar
  cases hr : rlastIdx ch cs with
  | some k =>
    show (k : Int) < (cs.length : Int)
    exact_mod_cast rlastIdx_lt hr
  | none =>
    show (-1 : Int) < (cs.length : Int)
    omega

/-- The boundary index lies below the length of the truncated text. -/
theorem capBoundary_lt (t : List Char) : capBoundary t < (t.length : Int) := by
  unfold capBoundary
  have h1 := pyRfindChar_lt t '.'
  have h2 := pyRfindChar_lt t '!'
  have h3 := pyRfindChar_lt t '?'
  have h4 := pyRfindChar_lt t '\n'
  omega

/-- The cap step never returns more than `m` characters. -/
theorem capAt_length_le (m : Nat) (cs : List Char) : (capAt m cs).length ≤ m := by
  unfold capAt
  by_cases hm : m < cs.length
  · rw [if_pos hm]
    have htl : (cs.take m).length = m := by
      simp only [List.length_take]
      omega
    by_cases hb : 5 * capBoundary (cs.take m) > 4 * (m : Int)
    · rw [if_pos hb]
      have hlt : capBoundary (cs.take m) < (m : Int) := by
        have := capBoundary_lt (cs.take m)
        omega
      have hge : 0 ≤ capBoundary (cs.take m) := by omega
      have hle : (capBoundary (cs.take m)).toNat + 1 ≤ m := by omega
      simp only [List.length_take]
      omega
    · rw [if_neg hb, htl]
  · rw [if_neg hm]
    omega

/-- C6: the clean text returned by `vtt_to_clean_text` is never longer
than `MAX_SUBTITLE_CHARS`, and when truncation fires the cut is at the
last sentence/newline boundary when that boundary lies in the final fifth
of the cap, else hard at the cap. -/
theorem c6_length_cap :
    (∀ s : String, (vttClean s).length ≤ MAX_SUBTITLE_CHARS) ∧
    (∀ (m : Nat) (cs : List Char), m < cs.length →
      (5 * capBoundary (cs.take m) > 4 * (m : Int) →
        capAt m cs = (cs.take m).take ((capBoundary (cs.take m)).toNat + 1)) ∧
      (¬ 5 * capBoundary (cs.take m) > 4 * (m : Int) →
        capAt m cs = cs.take m)) := by
  constructor
  · intro s
    show (vttTextL s.data).length ≤ MAX_SUBTITLE_CHARS
    unfold vttTextL
    by_cases he : s.data = []
    · simp [he]
    · rw [if_neg he]
      exact capAt_length_le MAX_SUBTITLE_CHARS (vttBody s.data)
  · intro m cs hm
    constructor
    · intro hb
      unfold capAt
      rw [if_pos hm, if_pos hb]
    · intro hb
      unfold capAt
      rw [if_pos hm, if_neg hb]

/-- Witness for `c6_length_cap`: the global bound at a concrete input, and
the two truncation branches at `m = 10` with a boundary inside the final
fifth (`abcdefghi.xyz`) and at `m = 5` with no boundary (`abcdefg`). -/
theorem c6_length_cap_witness :
    (vttClean "hi there.").length ≤ MAX_SUBTITLE_CHARS ∧
    capAt 10 "abcdefghi.xyz".data = "abcdefghi.".data ∧
    capAt 5 "abcdefg".data = "abcde".data := by
  refine ⟨c6_length_cap.1 "hi there.", ?_, ?_⟩
  · have h := (c6_length_cap.2 10 ("abcdefghi.xyz".data) (by decide)).1 (by decide)
    rw [h]; decide
  · have h := (c6_length_cap.2 5 ("abcdefg".data) (by decide)).2 (by decide)
    rw [h]; decide

/-! ## C7: repair application -/

/-- One repair step preserves the number of slides. -/
theorem applyOne_length (slides : List Slide) (r : RepairEntry) :
    (applyOne slides r).length = slides.length := by
  unfold applyOne
  by_cases h : repairInRange slides.length r = true
  · rw [if_pos h]
    cases r.slide with
    | some k => exact List.length_set slides _ _
    | none => rfl
  · rw [if_neg h]

/-- The repair loop preserves the number of slides. -/
theorem applyRepairs_length (rs : List RepairEntry) :
    ∀ slides : List Slide, (applyRepairs slides rs).length = slides.length := by
  induction rs with
  | nil => intro slides; rfl
  | cons r rs ih =>
    intro slides
    show (applyRepairs (applyOne slides r) rs).length = slides.length
    rw [ih (applyOne slides r), applyOne_length]

/-- A repair that does not name position `i + 1` leaves slide `i`
unchanged. -/
theorem applyOne_get_other (slides : List Slide) (r : RepairEntry) (i : Nat)
    (h : r.slide ≠ some ((i : Int) + 1)) :
    (applyOne slides r)[i]? = slides[i]? := by
  unfold applyOne
  by_cases hr : repairInRange slides.length r = true
  · rw [if_pos hr]
    cases hk : r.slide with
    | none => rfl
    | some k =>
      have hg : (k ≠ 0 && 0 < k && k ≤ (slides.length : Int)) = true := by
        unfold repairInRange at hr
        rw [hk] at hr
        exact hr
      simp only [Bool.and_eq_true, decide_eq_true_eq] at hg
      have hkpos : 0 < k := hg.1.2
      have hne : k.toNat - 1 ≠ i := by
        intro he
        apply h
        rw [hk]
        have : k = (i : Int) + 1 := by omega
        rw [this]
      exact List.getElem?_set_ne hne
  · rw [if_neg hr]

/-- Positions named by no repair of the list are unchanged by the loop. -/
theorem applyRepairs_get_other (rs : List RepairEntry) :
    ∀ (slides : List Slide) (i : Nat),
      (∀ r ∈ rs, r.slide ≠ some ((i : Int) + 1)) →
      (applyRepairs slides rs)[i]? = slides[i]? := by
  induction rs with
  | nil => intro slides i _; rfl
  | cons r rs ih =>
    intro slides i h
    show (applyRepairs (applyOne slides r) rs)[i]? = slides[i]?
    rw [ih (applyOne slides r) i (fun r2 hr2 => h r2 (List.mem_cons_of_mem r hr2))]
    exact applyOne_get_other slides r i (h r (List.mem_cons_self r rs))

/-- If exactly one repair of the list names the in-range 1-based position
`p`, the final slide at index `p - 1` is that repair content. -/
theorem applyRepairs_get_named (rs : List RepairEntry) :
    ∀ (slides : List Slide) (p : Nat) (r : RepairEntry), 0 < p → p ≤ slides.length →
      rs.filter (fun r2 => decide (r2.slide = some ((p : Nat) : Int))) = [r] →
      (applyRepairs slides rs)[p - 1]? = some (mkRepairSlide r) := by
  induction rs with
  | nil =>
    intro slides p r _ _ hf
    exact absurd hf (by simp)
  | cons r2 rs ih =>
    intro slides p r hp hpn hf
    by_cases h2 : r2.slide = some ((p : Nat) : Int)
    · rw [List.filter_cons_of_pos (by simpa using h2)] at hf
      have hr2 : r2 = r := (List.cons_eq_cons.mp hf).1
      have hrest : rs.filter (fun r2 => decide (r2.slide = some ((p : Nat) : Int))) = [] :=
        (List.cons_eq_cons.mp hf).2
      have hnone : ∀ r3 ∈ rs, r3.slide ≠ some (((p - 1 : Nat) : Int) + 1) := by
        intro r3 hr3 he
        have hpe : r3.slide = some ((p : Nat) : Int) := by
          rw [he]
          congr 1
          omega
        have hnf := List.filter_eq_nil_iff.mp hrest r3 hr3
        exact hnf (decide_eq_true hpe)
      show (applyRepairs (applyOne slides r2) rs)[p - 1]? = some (mkRepairSlide r)
      rw [applyRepairs_get_other rs (applyOne slides r2) (p - 1) hnone]
      unfold applyOne
      have hin : repairInRange slides.length r2 = true := by
        unfold repairInRange
        rw [h2]
        simp only [Bool.and_eq_true, decide_eq_true_eq]
        omega
      rw [if_pos hin, h2]
      have htn : ((p : Nat) : Int).toNat - 1 = p - 1 := by omega
      show (slides.set (((p : Nat) : Int).toNat - 1) (mkRepairSlide r2))[p - 1]? =
        some (mkRepairSlide r)
      rw [htn, hr2]
      exact List.getElem?_set_self (by omega)
    · rw [List.filter_cons_of_neg (by simpa using h2)] at hf
      show (applyRepairs (applyOne slides r2) rs)[p - 1]? = some (mkRepairSlide r)
      exact ih (applyOne slides r2) p r hp (by rw [applyOne_length]; exact hpn) hf

/-- C7: with PASS5 status `fail` and a non-empty repair list, the repair
loop keeps the number of slides, leaves every slide whose position no
repair names unchanged, stores the repair content at `p - 1` for a
uniquely-named in-range position `p`, and silently ignores any repair
whose guard fails (absent, zero, negative or beyond the slide count). -/
theorem c7_repair_application (status : List Char) (repaired : List RepairEntry)
    (slides : List Slide) (hs : status = "fail".data) (hne : repaired ≠ []) :
    (applyQualityRepairs status repaired slides).length = slides.length ∧
    (∀ i : Nat, (∀ r ∈ repaired, r.slide ≠ some ((i : Int) + 1)) →
      (applyQualityRepairs status repaired slides)[i]? = slides[i]?) ∧
    (∀ (p : Nat) (r : RepairEntry), 0 < p → p ≤ slides.length →
      repaired.filter (fun r2 => decide (r2.slide = some ((p : Nat) : Int))) = [r] →
      (applyQualityRepairs status repaired slides)[p - 1]? = some (mkRepairSlide r)) ∧
    (∀ (r : RepairEntry) (rs : List RepairEntry),
      repairInRange slides.length r = false →
      applyRepairs slides (r :: rs) = applyRepairs slides rs) := by
  have hq : applyQualityRepairs status repaired slides = applyRepairs slides repaired := by
    unfold applyQualityRepairs
    rw [if_pos ⟨hs, hne⟩]
  refine ⟨?_, ?_, ?_, ?_⟩
  · rw [hq]; exact applyRepairs_length repaired slides
  · intro i h; rw [hq]; exact applyRepairs_get_other repaired slides i h
  · intro p r hp hpn hf; rw [hq]; exact applyRepairs_get_named repaired slides p r hp hpn hf
  · intro r rs hr
    show applyRepairs (applyOne slides r) rs = applyRepairs slides rs
    unfold applyOne
    rw [if_neg (by simp [hr])]

/-- Witness for `c7_repair_application`, the spec scenario: three slides,
a repair of slide 2 and an out-of-range repair of slide 5; slide 2 is
replaced, slides 1 and 3 are untouched, and the out-of-range repair is a
no-op. -/
theorem c7_repair_application_witness :
    (applyQualityRepairs "fail".data
        [⟨some 2, some "\x7bX\x7d".data, some "\x7bY\x7d".data⟩,
         ⟨some 5, some "Z".data, some "W".data⟩]
        [⟨"T1".data, "P1".data⟩, ⟨"T2".data, "P2".data⟩, ⟨"T3".data, "P3".data⟩]).length = 3 ∧
    (applyQualityRepairs "fail".data
        [⟨some 2, some "\x7bX\x7d".data, some "\x7bY\x7d".data⟩,
         ⟨some 5, some "Z".data, some "W".data⟩]
        [⟨"T1".data, "P1".data⟩, ⟨"T2".data, "P2".data⟩, ⟨"T3".data, "P3".data⟩])[0]? =
      some ⟨"T1".data, "P1".data⟩ ∧
    (applyQualityRepairs "fail".data
        [⟨some 2, some "\x7bX\x7d".data, some "\x7bY\x7d".data⟩,
         ⟨some 5, some "Z".data, some "W".data⟩]
        [⟨"T1".data, "P1".data⟩, ⟨"T2".data, "P2".data⟩, ⟨"T3".data, "P3".data⟩])[1]? =
      some ⟨"\x7bX\x7d".data, "\x7bY\x7d".data⟩ ∧
    applyRepairs
        [⟨"T1".data, "P1".data⟩, ⟨"T2".data, "P2".data⟩, ⟨"T3".data, "P3".data⟩]
        [⟨some 5, some "Z".data, some "W".data⟩] =
      applyRepairs
        [⟨"T1".data, "P1".data⟩, ⟨"T2".data, "P2".data⟩, ⟨"T3".data, "P3".data⟩] [] := by
  have h := c7_repair_application "fail".data
    [⟨some 2, some "\x7bX\x7d".data, some "\x7bY\x7d".data⟩,
     ⟨some 5, some "Z".data, some "W".data⟩]
    [⟨"T1".data, "P1".data⟩, ⟨"T2".data, "P2".data⟩, ⟨"T3".data, "P3".data⟩]
    rfl (by decide)
  refine ⟨h.1.trans (by decide), ?_, ?_, ?_⟩
  · exact (h.2.1 0 (by decide)).trans (by decide)
  · exact (h.2.2.1 2 ⟨some 2, some "\x7bX\x7d".data, some "\x7bY\x7d".data⟩
      (by decide) (by decide) (by decide)).trans (by decide)
  · exact h.2.2.2 ⟨some 5, some "Z".data, some "W".data⟩ [] (by decide)

/-! ## C8: strict fill failure reporting

Substring-occurrence infrastructure relating `countOcc` / `containsSub`
to the scanning functions. -/

/-- A pattern count of zero means the pattern is a prefix of no suffix. -/
theorem countOcc_zero_iff {pat : List Char} (hne : pat ≠ []) :
    ∀ xs : List Char,
      countOcc pat xs = 0 ↔ ∀ k, pat.isPrefixOf (xs.drop k) = false := by
  intro xs
  induction xs with
  | nil =>
    constructor
    · intro _ k
      rw [List.drop_nil]
      cases hp : pat.isPrefixOf ([] : List Char)
      · rfl
      · exact absurd (List.prefix_nil.mp (List.isPrefixOf_iff_prefix.mp hp)) hne
    · intro _
      rfl
  | cons c cs ih =>
    have hsplit : countOcc pat (c :: cs) = 0 ↔
        (pat.isPrefixOf (c :: cs) = false ∧ countOcc pat cs = 0) := by
      rw [countOcc]
      cases hp : pat.isPrefixOf (c :: cs) <;> simp [hp]
    rw [hsplit, ih]
    constructor
    · rintro ⟨h0, hrest⟩ k
      cases k with
      | zero => exact h0
      | succ k => exact hrest k
    · intro h
      exact ⟨h 0, fun k => h (k + 1)⟩

/-- Dropping a prefix cannot introduce occurrences. -/
theorem countOcc_zero_drop {pat : List Char} (hne : pat ≠ []) {xs : List Char}
    (h : countOcc pat xs = 0) (k : Nat) : countOcc pat (xs.drop k) = 0 := by
  rw [countOcc_zero_iff hne] at h ⊢
  intro k2
  rw [List.drop_drop]
  exact h (k + k2)

/-- A `dropWhile` result is a suffix, so it keeps a zero count. -/
theorem countOcc_zero_dropWhile {pat : List Char} (hne : pat ≠ []) {xs : List Char}
    (p : Char → Bool) (h : countOcc pat xs = 0) :
    countOcc pat (xs.dropWhile p) = 0 := by
  obtain ⟨k, hk⟩ : ∃ k, xs.dropWhile p = xs.drop k := by
    induction xs with
    | nil => exact ⟨0, rfl⟩
    | cons c cs ih =>
      by_cases hc : p c = true
      · obtain ⟨k, hk⟩ := ih (by
          rw [countOcc_zero_iff hne] at h ⊢
          intro k2
          exact h (k2 + 1))
        exact ⟨k + 1, by rw [List.dropWhile_cons_of_pos hc]; exact hk⟩
      · refine ⟨0, ?_⟩
        rw [List.dropWhile_cons_of_neg (by simpa using hc)]
        rfl
  rw [hk]
  exact countOcc_zero_drop hne h k

/-- No containment means a zero occurrence count. -/
theorem containsSub_false_iff (cs pat : List Char) :
    containsSub cs pat = false ↔ countOcc pat cs = 0 := by
  unfold containsSub
  cases h : countOcc pat cs <;> simp

/-- With no occurrence of `CORE OBJECTIVE`, no position carries the
terminator `\nCORE OBJECTIVE\b`. -/
theorem termAt_false_of_no_coreObj {cs : List Char}
    (h : countOcc coreObj cs = 0) : termAt cs = false := by
  unfold termAt
  cases hp : termCO.isPrefixOf cs
  · rfl
  · exfalso
    have hpre : termCO <+: cs := List.isPrefixOf_iff_prefix.mp hp
    obtain ⟨rest, hrest⟩ := hpre
    have h1 : coreObj.isPrefixOf (cs.drop 1) = true := by
      rw [← hrest]
      show coreObj.isPrefixOf ((('\n' :: coreObj) ++ rest).drop 1) = true
      rw [List.cons_append, List.drop_succ_cons, List.drop_zero]
      exact List.isPrefixOf_iff_prefix.mpr ⟨rest, rfl⟩
    have := (countOcc_zero_iff (by decide) cs).mp h 1
    rw [this] at h1
    cases h1

/-- With no occurrence of `CORE OBJECTIVE`, the terminator search fails. -/
theorem findTerm_none_of_no_coreObj :
    ∀ cs : List Char, countOcc coreObj cs = 0 → findTerm cs = none := by
  intro cs
  induction cs with
  | nil => intro _; rfl
  | cons c cs ih =>
    intro h
    have hterm : termAt (c :: cs) = false := termAt_false_of_no_coreObj h
    rw [findTerm, if_neg (by simp [hterm])]
    have hcs : countOcc coreObj cs = 0 := by
      rw [countOcc_zero_iff (by decide)] at h ⊢
      intro k
      exact h (k + 1)
    rw [ih hcs]
    rfl

/-- Where the strict pattern has no match, the substitution scan copies its
input unchanged. -/
theorem subOsCoGo_id (v : List Char) :
    ∀ (fuel : Nat) (cs : List Char),
      hasOsCoMatch cs = false → subOsCoGo v fuel cs = cs := by
  intro fuel
  induction fuel with
  | zero => intro cs _; rfl
  | succ fuel ih =>
    intro cs h
    match cs with
    | [] => rfl
    | c :: cs' =>
      simp only [hasOsCoMatch] at h
      simp only [subOsCoGo]
      by_cases hl : labelOS.isPrefixOf (c :: cs') = true
      · rw [if_pos hl] at h
        rw [if_pos hl]
        cases hft : findTerm (((c :: cs').drop labelOS.length).drop
            (((c :: cs').drop labelOS.length).takeWhile isPySpace).length) with
        | some q =>
          rw [hft] at h
          simp at h
        | none =>
          rw [hft] at h
          dsimp only
          simp only [Option.isSome_none, Bool.false_eq_true, if_false] at h
          by_cases hc : 1 ≤ (((c :: cs').drop labelOS.length).takeWhile isPySpace).length ∧
              termAt (((c :: cs').drop labelOS.length).drop
                ((((c :: cs').drop labelOS.length).takeWhile isPySpace).length - 1)) = true
          · rw [if_pos hc] at h
            cases h
          · rw [if_neg hc] at h
            rw [if_neg hc]
            rw [ih cs' h]
      · rw [if_neg hl] at h
        rw [if_neg hl]
        rw [ih cs' h]

/-- Without the label `ORIGINAL_STORY:` the strict pattern cannot match. -/
theorem hasOsCoMatch_false_of_no_label :
    ∀ cs : List Char, countOcc labelOS cs = 0 → hasOsCoMatch cs = false := by
  intro cs
  induction cs with
  | nil => intro _; rfl
  | cons c cs ih =>
    intro h
    have h0 : labelOS.isPrefixOf (c :: cs) = false :=
      (countOcc_zero_iff (by decide) (c :: cs)).mp h 0
    have hcs : countOcc labelOS cs = 0 := by
      rw [countOcc_zero_iff (by decide)] at h ⊢
      intro k
      exact h (k + 1)
    simp only [hasOsCoMatch]
    rw [if_neg (by simp [h0])]
    exact ih hcs

/-- Without the title `CORE OBJECTIVE` the strict pattern cannot match:
every terminator probe fails. -/
theorem hasOsCoMatch_false_of_no_coreObj :
    ∀ cs : List Char, countOcc coreObj cs = 0 → hasOsCoMatch cs = false := by
  intro cs
  induction cs with
  | nil => intro _; rfl
  | cons c cs ih =>
    intro h
    have hcs : countOcc coreObj cs = 0 := by
      rw [countOcc_zero_iff (by decide)] at h ⊢
      intro k
      exact h (k + 1)
    simp only [hasOsCoMatch]
    by_cases hl : labelOS.isPrefixOf (c :: cs) = true
    · rw [if_pos hl]
      have hd1 : countOcc coreObj ((c :: cs).drop labelOS.length) = 0 :=
        countOcc_zero_drop (by decide) h labelOS.length
      have hd2 : countOcc coreObj (((c :: cs).drop labelOS.length).drop
          (((c :: cs).drop labelOS.length).takeWhile isPySpace).length) = 0 :=
        countOcc_zero_drop (by decide) hd1 _
      rw [findTerm_none_of_no_coreObj _ hd2]
      have hd3 : countOcc coreObj (((c :: cs).drop labelOS.length).drop
          ((((c :: cs).drop labelOS.length).takeWhile isPySpace).length - 1)) = 0 :=
        countOcc_zero_drop (by decide) hd1 _
      have hterm := termAt_false_of_no_coreObj hd3
      rw [if_neg (by simp [Option.isSome_none])]
      rw [if_neg (by
        intro hand
        rw [hterm] at hand
        exact absurd hand.2 (by simp))]
      exact ih hcs
    · rw [if_neg hl]
      exact ih hcs

/-- C8: whenever the strict pattern `ORIGINAL_STORY: ... CORE OBJECTIVE`
does not match the template, `fill_story_core_prompt` reports an error
(never a normal result); a template without the label yields the
missing-label error, and a template with the label but without the
terminator title yields the missing-terminator error. -/
theorem c8_fill_strict_errors (t s : String) :
    (hasOsCoMatch t.data = false →
      ∃ e, fill_story_core_prompt t s = Except.error e) ∧
    (pyStrip s.data ≠ [] → containsSub t.data labelOS = false →
      fill_story_core_prompt t s = Except.error FillErr.missingLabel) ∧
    (pyStrip s.data ≠ [] → containsSub t.data labelOS = true →
      containsSub t.data coreObj = false →
      fill_story_core_prompt t s = Except.error FillErr.missingTerminator) := by
  refine ⟨?_, ?_, ?_⟩
  · intro hm
    simp only [fill_story_core_prompt, fillCoreL]
    by_cases hb : pyStrip s.data = []
    · rw [if_pos hb]
      exact ⟨FillErr.emptyStory, rfl⟩
    · rw [if_neg hb]
      rw [subOsCoGo_id (pyRstrip s.data) (t.data.length + 1) t.data hm]
      rw [if_pos rfl]
      by_cases h1 : containsSub t.data labelOS = false
      · rw [if_pos h1]
        exact ⟨FillErr.missingLabel, rfl⟩
      · rw [if_neg h1]
        by_cases h2 : containsSub t.data coreObj = false
        · rw [if_pos h2]
          exact ⟨FillErr.missingTerminator, rfl⟩
        · rw [if_neg h2]
          exact ⟨FillErr.noBlock, rfl⟩
  · intro hb h1
    simp only [fill_story_core_prompt, fillCoreL]
    rw [if_neg hb]
    have hz : countOcc labelOS t.data = 0 := (containsSub_false_iff _ _).mp h1
    rw [subOsCoGo_id (pyRstrip s.data) (t.data.length + 1) t.data
      (hasOsCoMatch_false_of_no_label t.data hz)]
    rw [if_pos rfl, if_pos h1]
    rfl
  · intro hb h1 h2
    simp only [fill_story_core_prompt, fillCoreL]
    rw [if_neg hb]
    have hz : countOcc coreObj t.data = 0 := (containsSub_false_iff _ _).mp h2
    rw [subOsCoGo_id (pyRstrip s.data) (t.data.length + 1) t.data
      (hasOsCoMatch_false_of_no_coreObj t.data hz)]
    rw [if_pos rfl, if_neg (by simp [h1]), if_pos h2]
    rfl

/-- Witness for `c8_fill_strict_errors`: a template without the label, a
template with the label but no terminator, and a matchless template. -/
theorem c8_fill_strict_errors_witness :
    fill_story_core_prompt "no label here" "story" =
      Except.error FillErr.missingLabel ∧
    fill_story_core_prompt "ORIGINAL_STORY: x" "story" =
      Except.error FillErr.missingTerminator ∧
    ∃ e, fill_story_core_prompt "plain text" "story" = Except.error e := by
  refine ⟨?_, ?_, ?_⟩
  · exact (c8_fill_strict_errors "no label here" "story").2.1 (by decide) (by decide)
  · exact (c8_fill_strict_errors "ORIGINAL_STORY: x" "story").2.2
      (by decide) (by decide) (by decide)
  · exact (c8_fill_strict_errors "plain text" "story").1 (by decide)

/-! ## C10: the phrase collapse only deletes tokens -/

/-- The repeat extension never moves backwards. -/
theorem extendRep_ge (p : Nat) (toks : List (List Char)) (i : Nat) :
    ∀ (fuel j : Nat), j ≤ extendRep p toks i fuel j := by
  intro fuel
  induction fuel with
  | zero => intro j; exact Nat.le_refl j
  | succ fuel ih =>
    intro j
    rw [extendRep]
    by_cases h : j + p ≤ toks.length ∧ nSlice toks j p = nSlice toks i p
    · rw [if_pos h]
      exact le_trans (Nat.le_add_right j p) (ih (j + p))
    · rw [if_neg h]

/-- Removing the index range `[a, j)` keeps a sublist. -/
theorem take_append_drop_sublist {α : Type} (l : List α) (a j : Nat) (h : a ≤ j) :
    (l.take a ++ l.drop j).Sublist l := by
  conv_rhs => rw [← List.take_append_drop a l]
  refine List.Sublist.append (List.Sublist.refl _) ?_
  have : l.drop j = (l.drop a).drop (j - a) := by
    rw [List.drop_drop]
    congr 1
    omega
  rw [this]
  exact List.drop_sublist _ _

/-- The period scan only deletes tokens. -/
theorem innerScan_sublist (p : Nat) :
    ∀ (fuel i : Nat) (toks : List (List Char)),
      (innerScan p fuel i toks).Sublist toks := by
  intro fuel
  induction fuel with
  | zero => intro i toks; exact List.Sublist.refl _
  | succ fuel ih =>
    intro i toks
    simp only [innerScan]
    by_cases h1 : i + 2 * p ≤ toks.length
    · rw [if_pos h1]
      by_cases h2 : nSlice toks i p = nSlice toks (i + p) p
      · rw [if_pos h2]
        exact (ih i _).trans
          (take_append_drop_sublist toks (i + p) _ (extendRep_ge p toks i _ (i + p)))
      · rw [if_neg h2]
        exact ih (i + 1) toks
    · rw [if_neg h1]

/-- One period iteration only deletes tokens. -/
theorem stepPeriod_sublist (p : Nat) (toks : List (List Char)) :
    (stepPeriod p toks).Sublist toks := by
  unfold stepPeriod
  by_cases h : p > toks.length / 2
  · rw [if_pos h]
  · rw [if_neg h]
    exact innerScan_sublist p _ 0 toks

/-- The whole period loop only deletes tokens. -/
theorem runPeriods_sublist (p : Nat) :
    ∀ toks : List (List Char), (runPeriods p toks).Sublist toks := by
  induction p using Nat.strong_induction_on with
  | _ p ih =>
    intro toks
    match p with
    | 0 => exact List.Sublist.refl _
    | 1 => exact List.Sublist.refl _
    | 2 => exact List.Sublist.refl _
    | q + 3 =>
      show (runPeriods (q + 2) (stepPeriod (q + 3) toks)).Sublist toks
      exact (ih (q + 2) (by omega) _).trans (stepPeriod_sublist (q + 3) toks)

/-- Tokens produced by the whitespace split are non-empty and hold no
whitespace characters. -/
theorem pySplitGo_elems :
    ∀ (cs cur : List Char), (∀ c ∈ cur, isPySpace c = false) →
      ∀ t ∈ pySplitGo cur cs, t ≠ [] ∧ ∀ c ∈ t, isPySpace c = false := by
  intro cs
  induction cs with
  | nil =>
    intro cur hcur t ht
    by_cases hc : cur = []
    · rw [pySplitGo, if_pos hc] at ht
      cases ht
    · rw [pySplitGo, if_neg hc] at ht
      rcases List.mem_singleton.mp ht with rfl
      refine ⟨by simpa using hc, ?_⟩
      intro c hc2
      exact hcur c (List.mem_reverse.mp hc2)
  | cons c cs ih =>
    intro cur hcur t ht
    rw [pySplitGo] at ht
    by_cases hsp : isPySpace c = true
    · rw [if_pos hsp] at ht
      by_cases hc : cur = []
      · rw [if_pos hc] at ht
        exact ih [] (by intro d hd; cases hd) t ht
      · rw [if_neg hc] at ht
        cases List.mem_cons.mp ht with
        | inl he =>
          subst he
          refine ⟨by simpa using hc, ?_⟩
          intro d hd
          exact hcur d (List.mem_reverse.mp hd)
        | inr hm => exact ih [] (by intro d hd; cases hd) t hm
    · rw [if_neg hsp] at ht
      refine ih (c :: cur) ?_ t ht
      intro d hd
      cases List.mem_cons.mp hd with
      | inl he => subst he; simpa using hsp
      | inr hm => exact hcur d hm

/-- Collapsing runs of whitespace-like characters to single spaces does
not change the whitespace split.  The flag invariant: inside a run the
token accumulator is empty. -/
theorem pySplitGo_runRepl (p : Char → Bool)
    (hp : ∀ c, p c = true → isPySpace c = true) :
    ∀ (cs : List Char) (b : Bool) (cur : List Char), (b = true → cur = []) →
      pySplitGo cur (runReplGo p b cs) = pySplitGo cur cs := by
  intro cs
  induction cs with
  | nil => intro b cur _; rfl
  | cons c cs ih =>
    intro b cur hb
    by_cases hc : p c = true
    · have hsp : isPySpace c = true := hp c hc
      cases b with
      | true =>
        rw [runReplGo, if_pos hc, if_pos rfl]
        rw [ih true cur hb]
        rw [hb rfl]
        show pySplitGo [] cs = pySplitGo [] (c :: cs)
        rw [pySplitGo, if_pos hsp, if_pos rfl]
      | false =>
        rw [runReplGo, if_pos hc, if_neg (by simp)]
        show pySplitGo cur (' ' :: runReplGo p true cs) = pySplitGo cur (c :: cs)
        rw [pySplitGo, pySplitGo, if_pos (show isPySpace ' ' = true from rfl), if_pos hsp]
        by_cases hcur : cur = []
        · rw [if_pos hcur, if_pos hcur]
          exact ih true [] (fun _ => rfl)
        · rw [if_neg hcur, if_neg hcur]
          rw [ih true [] (fun _ => rfl)]
    · rw [runReplGo, if_neg hc]
      by_cases hsp : isPySpace c = true
      · rw [pySplitGo, pySplitGo, if_pos hsp, if_pos hsp]
        by_cases hcur : cur = []
        · rw [if_pos hcur, if_pos hcur]
          exact ih false [] (fun h => by cases h)
        · rw [if_neg hcur, if_neg hcur]
          rw [ih false [] (fun h => by cases h)]
      · rw [pySplitGo, pySplitGo, if_neg hsp, if_neg hsp]
        exact ih false (c :: cur) (fun h => by cases h)

/-- Scanning a whitespace-free chunk accumulates it onto the current
token. -/
theorem pySplitGo_chunk :
    ∀ (t rest cur : List Char), (∀ c ∈ t, isPySpace c = false) →
      pySplitGo cur (t ++ rest) = pySplitGo (t.reverse ++ cur) rest := by
  intro t
  induction t with
  | nil =>
    intro rest cur _
    simp
  | cons c t ih =>
    intro rest cur h
    have hc : isPySpace c = false := h c (List.mem_cons_self c t)
    rw [List.cons_append, pySplitGo, if_neg (by simp [hc])]
    rw [ih rest (c :: cur) (fun d hd => h d (List.mem_cons_of_mem c hd))]
    congr 1
    simp

/-- Splitting the space-join of non-empty whitespace-free tokens recovers
the tokens. -/
theorem pySplit_joinSpace :
    ∀ toks : List (List Char),
      (∀ t ∈ toks, t ≠ [] ∧ ∀ c ∈ t, isPySpace c = false) →
      pySplit (joinSpace toks) = toks := by
  intro toks
  induction toks with
  | nil => intro _; rfl
  | cons t ts ih =>
    intro h
    obtain ⟨hne, hns⟩ := h t (List.mem_cons_self t ts)
    cases ts with
    | nil =>
      show pySplit t = [t]
      unfold pySplit
      rw [show t = t ++ [] by simp] at hns ⊢
      rw [pySplitGo_chunk t [] [] (by simpa using hns)]
      rw [pySplitGo]
      rw [if_neg (by simpa using hne)]
      simp
    | cons t2 ts2 =>
      show pySplit (t ++ ' ' :: joinSpace (t2 :: ts2)) = t :: t2 :: ts2
      unfold pySplit
      rw [pySplitGo_chunk t (' ' :: joinSpace (t2 :: ts2)) [] hns]
      rw [pySplitGo, if_pos (show isPySpace ' ' = true from rfl)]
      rw [if_neg (by simpa using hne)]
      have := ih (fun u hu => h u (List.mem_cons_of_mem t hu))
      unfold pySplit at this
      rw [this]
      simp

/-- Auxiliary: characters accepted by `spaceTab` are whitespace. -/
theorem spaceTab_isPySpace : ∀ c : Char, spaceTab c = true → isPySpace c = true := by
  intro c h
  simp only [spaceTab, Bool.or_eq_true, decide_eq_true_eq] at h
  rcases h with h | h <;> simp [isPySpace, h]

/-- Auxiliary: the space predicate of `collapseSpaces` is whitespace. -/
theorem spaceOnly_isPySpace :
    ∀ c : Char, (fun c => decide (c = ' ')) c = true → isPySpace c = true := by
  intro c h
  simp only [decide_eq_true_eq] at h
  simp [isPySpace, h]

/-- C10: the whitespace-token sequence of the output of
`collapse_consecutive_repeated_phrases` is a sublist of the input token
sequence — the scan only ever deletes contiguous blocks of tokens, and
every surviving token keeps its spelling and relative order. -/
theorem c10_token_sublist (s : String) :
    (pySplit (collapse_consecutive_repeated_phrases s).data).Sublist
      (pySplit s.data) := by
  show (pySplit (collapsePhrasesL s.data)).Sublist (pySplit s.data)
  simp only [collapsePhrasesL]
  by_cases he : s.data = []
  · rw [if_pos he, he]
  · rw [if_neg he]
    have hA : pySplit (collapseSpaceTab s.data) = pySplit s.data :=
      pySplitGo_runRepl spaceTab spaceTab_isPySpace s.data false [] (fun h => by cases h)
    by_cases hlen : (pySplit (collapseSpaceTab s.data)).length < 6
    · rw [if_pos hlen, hA]
    · rw [if_neg hlen]
      have hsub : (runPeriods 18 (pySplit (collapseSpaceTab s.data))).Sublist
          (pySplit (collapseSpaceTab s.data)) :=
        runPeriods_sublist 18 _
      have helems : ∀ t ∈ runPeriods 18 (pySplit (collapseSpaceTab s.data)),
          t ≠ [] ∧ ∀ c ∈ t, isPySpace c = false := by
        intro t ht
        exact pySplitGo_elems (collapseSpaceTab s.data) [] (fun d hd => by cases hd) t
          (hsub.subset ht)
      have hB : pySplit (collapseSpaces
          (joinSpace (runPeriods 18 (pySplit (collapseSpaceTab s.data))))) =
          runPeriods 18 (pySplit (collapseSpaceTab s.data)) := by
        have h1 : pySplit (collapseSpaces
            (joinSpace (runPeriods 18 (pySplit (collapseSpaceTab s.data))))) =
            pySplit (joinSpace (runPeriods 18 (pySplit (collapseSpaceTab s.data)))) :=
          pySplitGo_runRepl _ spaceOnly_isPySpace _ false [] (fun h => by cases h)
        rw [h1]
        exact pySplit_joinSpace _ helems
      rw [hB]
      have h2 : (pySplit (collapseSpaceTab s.data)).Sublist (pySplit s.data) := by
        rw [hA]
      exact hsub.trans h2

/-! ## C3 amended: single-block templates keep a single labeled block

Occurrence-counting machinery.  `borderFree` rules out occurrences of a
pattern that straddle a junction where a copy of the pattern (or a
remnant of one) begins: any such occurrence would force a proper border
(a prefix equal to the corresponding suffix) of the pattern, and the
concrete labels have none. -/

/-- No proper non-empty prefix of `pat` equals the corresponding suffix.
Decidable for concrete patterns. -/
abbrev borderFree (pat : List Char) : Prop :=
  ∀ k, k < pat.length → 0 < k → pat.take (pat.length - k) ≠ pat.drop k

/-- The head of a list a non-empty pattern is a prefix of. -/
theorem head_of_isPrefixOf {pat : List Char} {c : Char} {w : List Char}
    (h : pat.isPrefixOf (c :: w) = true) (hne : pat ≠ []) : pat.head? = some c := by
  obtain ⟨t, ht⟩ := List.isPrefixOf_iff_prefix.mp h
  cases pat with
  | nil => exact absurd rfl hne
  | cons p ps =>
    rw [List.cons_append] at ht
    injection ht with h1 _
    rw [h1]
    rfl

/-- A non-empty pattern whose head differs from `c` is a prefix of no
list starting with `c`. -/
theorem isPrefixOf_cons_false {pat : List Char} {c : Char} (w : List Char)
    (hne : pat ≠ []) (hh : pat.head? ≠ some c) :
    pat.isPrefixOf (c :: w) = false := by
  cases hp : pat.isPrefixOf (c :: w)
  · rfl
  · exact absurd (head_of_isPrefixOf hp hne) hh

/-- A prefix of an append that fits inside the left part is a prefix of
the left part. -/
theorem isPrefixOf_left_of_le {pat u : List Char} (w : List Char)
    (h : pat.isPrefixOf (u ++ w) = true) (hlen : pat.length ≤ u.length) :
    pat.isPrefixOf u = true := by
  obtain ⟨t, ht⟩ := List.isPrefixOf_iff_prefix.mp h
  apply List.isPrefixOf_iff_prefix.mpr
  have h1 : (pat ++ t).take pat.length = pat := List.take_left pat t
  rw [ht, List.take_append_of_le_length hlen] at h1
  have h2 := List.take_prefix pat.length u
  rw [h1] at h2
  exact h2
/-- An occurrence that starts inside `u` but does not fit there covers the
following character. -/
theorem mem_of_isPrefixOf_straddle {pat u : List Char} {c : Char} (w : List Char)
    (h : pat.isPrefixOf (u ++ c :: w) = true) (hlen : u.length < pat.length) :
    c ∈ pat := by
  obtain ⟨t, ht⟩ := List.isPrefixOf_iff_prefix.mp h
  have h1 : (pat ++ t)[u.length]? = pat[u.length]? :=
    List.getElem?_append_left hlen
  have h2 : (u ++ c :: w)[u.length]? = some c := by
    rw [List.getElem?_append_right (Nat.le_refl u.length)]
    simp
  rw [ht, h2] at h1
  exact List.getElem?_mem h1.symm

/-- A border-free pattern never occurs starting inside a remnant of
itself: `pat` is no prefix of `pat.drop k ++ X` for `0 < k < |pat|`. -/
theorem no_border_occurrence {pat : List Char} (hbf : borderFree pat)
    {k : Nat} (X : List Char) (hk0 : 0 < k) (hkl : k < pat.length) :
    pat.isPrefixOf (pat.drop k ++ X) = false := by
  cases hp : pat.isPrefixOf (pat.drop k ++ X)
  · rfl
  · exfalso
    obtain ⟨t, ht⟩ := List.isPrefixOf_iff_prefix.mp hp
    have h1 : (pat ++ t).take (pat.length - k) = pat.take (pat.length - k) :=
      List.take_append_of_le_length (by omega)
    have h2 : (pat.drop k ++ X).take (pat.length - k) = pat.drop k := by
      have hl : pat.length - k = (pat.drop k).length := by rw [List.length_drop]
      rw [hl]
      exact List.take_left _ _
    rw [ht, h2] at h1
    exact hbf k hkl hk0 h1.symm

/-- A border-free pattern never occurs straddling into a fresh copy of
itself: `pat` is no prefix of `u ++ pat ++ w` when `0 < |u| < |pat|`. -/
theorem no_straddle_occurrence {pat : List Char} (hbf : borderFree pat)
    {u : List Char} (w : List Char) (hu0 : 0 < u.length) (hul : u.length < pat.length) :
    pat.isPrefixOf (u ++ (pat ++ w)) = false := by
  cases hp : pat.isPrefixOf (u ++ (pat ++ w))
  · rfl
  · exfalso
    obtain ⟨t, ht⟩ := List.isPrefixOf_iff_prefix.mp hp
    have hd : pat.drop u.length ++ t = pat ++ w := by
      have h3 := congrArg (List.drop u.length) ht
      rw [List.drop_append_of_le_length (by omega), List.drop_left] at h3
      exact h3
    have h1 : (pat.drop u.length ++ t).take (pat.length - u.length) = pat.drop u.length := by
      have hl : pat.length - u.length = (pat.drop u.length).length := by
        rw [List.length_drop]
      rw [hl]
      exact List.take_left _ _
    rw [hd, List.take_append_of_le_length (by omega)] at h1
    exact hbf u.length hul hu0 h1

/-- Appending on the left adds no occurrences when the pattern starts at
no position of the left part. -/
theorem countOcc_append_of_no_left (pat : List Char) :
    ∀ (a b : List Char),
      (∀ q, q < a.length → pat.isPrefixOf (a.drop q ++ b) = false) →
      countOcc pat (a ++ b) = countOcc pat b := by
  intro a
  induction a with
  | nil => intro b _; rfl
  | cons c a ih =>
    intro b h
    rw [List.cons_append, countOcc]
    have h0 : pat.isPrefixOf (c :: (a ++ b)) = false := by
      have := h 0 (by simp)
      simpa using this
    rw [h0]
    simp only [Bool.false_eq_true, if_false, Nat.zero_add]
    exact ih b (fun q hq => by
      have := h (q + 1) (by simpa using Nat.succ_lt_succ hq)
      simpa using this)

/-- Cons form of `countOcc_self_append`. -/
theorem countOcc_self_append_cons {c : Char} {p' : List Char}
    (hbf : borderFree (c :: p')) (X : List Char) :
    countOcc (c :: p') ((c :: p') ++ X) = 1 + countOcc (c :: p') X := by
  rw [List.cons_append, countOcc]
  have hpre : (c :: p').isPrefixOf (c :: (p' ++ X)) = true := by
    rw [← List.cons_append]
    exact List.isPrefixOf_iff_prefix.mpr (List.prefix_append _ X)
  rw [hpre]
  simp only [if_true]
  congr 1
  apply countOcc_append_of_no_left
  intro q hq
  have hdrop : p'.drop q = (c :: p').drop (q + 1) := rfl
  rw [hdrop]
  refine no_border_occurrence hbf X (by omega) ?_
  simp only [List.length_cons]
  omega

/-- A border-free pattern occurs exactly once more in `pat ++ X` than in
`X`. -/
theorem countOcc_self_append {pat : List Char} (hne : pat ≠ [])
    (hbf : borderFree pat) (X : List Char) :
    countOcc pat (pat ++ X) = 1 + countOcc pat X := by
  obtain ⟨c, p', hpat⟩ : ∃ c p', pat = c :: p' := by
    cases pat with
    | nil => exact absurd rfl hne
    | cons c p' => exact ⟨c, p', rfl⟩
  subst hpat
  exact countOcc_self_append_cons hbf X

/-- The rewritten block `STORY_CORE:\n{v}\n\n` followed by text free of the
label holds exactly one label occurrence, provided the injected value `v`
is also free of it. -/
theorem countOcc_scRepl_append (v' rest : List Char)
    (hv : countOcc labelSC v' = 0) (hrest : countOcc labelSC rest = 0) :
    countOcc labelSC (scRepl v' ++ rest) = 1 := by
  have hshape : scRepl v' ++ rest =
      labelSC ++ (('\n' :: '{' :: (v' ++ ['}', '\n', '\n'])) ++ rest) := by
    simp [scRepl]
  rw [hshape]
  rw [countOcc_self_append (by decide) (by decide)]
  have hmid : countOcc labelSC (('\n' :: '{' :: (v' ++ ['}', '\n', '\n'])) ++ rest) = 0 := by
    rw [countOcc_append_of_no_left]
    · exact hrest
    · intro q hq
      simp only [List.length_cons, List.length_append, List.length_nil] at hq
      match q, hq with
      | 0, _ =>
        exact isPrefixOf_cons_false _ (by decide) (by decide)
      | 1, _ =>
        exact isPrefixOf_cons_false _ (by decide) (by decide)
      | q' + 2, hq =>
        show labelSC.isPrefixOf ((v' ++ ['}', '\n', '\n']).drop q' ++ rest) = false
        by_cases hcase : q' < v'.length
        · rw [List.drop_append_of_le_length (Nat.le_of_lt hcase), List.append_assoc]
          cases hp : labelSC.isPrefixOf (v'.drop q' ++ (['}', '\n', '\n'] ++ rest))
          · rfl
          · exfalso
            by_cases hlen : labelSC.length ≤ (v'.drop q').length
            · have hpre := isPrefixOf_left_of_le _ hp hlen
              have hno := (countOcc_zero_iff (by decide) v').mp hv q'
              rw [hno] at hpre
              cases hpre
            · have hmem : '}' ∈ labelSC := by
                have hshape2 : ['}', '\n', '\n'] ++ rest = '}' :: ('\n' :: '\n' :: rest) := rfl
                rw [hshape2] at hp
                exact mem_of_isPrefixOf_straddle _ hp (by
                  simp only [List.length_drop] at hlen ⊢
                  omega)
              exact absurd hmem (by decide)
        · obtain ⟨d, hd, hdq⟩ : ∃ d, d < 3 ∧ q' = v'.length + d :=
            ⟨q' - v'.length, by omega, by omega⟩
          subst hdq
          rw [List.drop_append d]
          match d, hd with
          | 0, _ => exact isPrefixOf_cons_false _ (by decide) (by decide)
          | 1, _ => exact isPrefixOf_cons_false _ (by decide) (by decide)
          | 2, _ => exact isPrefixOf_cons_false _ (by decide) (by decide)
  rw [hmid]

/-- A prefix of a label-free text is label-free. -/
theorem countOcc_zero_of_isPrefix {pat u w : List Char} (hne : pat ≠ [])
    (hp : u <+: w) (h : countOcc pat w = 0) : countOcc pat u = 0 := by
  obtain ⟨t, rfl⟩ := hp
  rw [countOcc_zero_iff hne] at h ⊢
  intro k
  by_cases hk : k ≤ u.length
  · have hd : (u ++ t).drop k = u.drop k ++ t := List.drop_append_of_le_length hk
    cases hp2 : pat.isPrefixOf (u.drop k)
    · rfl
    · exfalso
      have hpre := List.isPrefixOf_iff_prefix.mp hp2
      have htrue : pat.isPrefixOf (u.drop k ++ t) = true :=
        List.isPrefixOf_iff_prefix.mpr (hpre.trans (List.prefix_append _ t))
      have hfalse := h k
      rw [hd, htrue] at hfalse
      cases hfalse
  · have hd : u.drop k = [] := List.drop_eq_nil_of_le (by omega)
    rw [hd]
    cases hp2 : pat.isPrefixOf ([] : List Char)
    · rfl
    · exact absurd (List.prefix_nil.mp (List.isPrefixOf_iff_prefix.mp hp2)) hne

/-- The rstripped value is a prefix of the value. -/
theorem pyRstrip_isPrefix (v : List Char) : pyRstrip v <+: v := by
  unfold pyRstrip
  have h := List.reverse_prefix.mpr (List.dropWhile_suffix (l := v.reverse) isPySpace)
  rw [List.reverse_reverse] at h
  exact h

/-- With no label occurrence the block-rewrite scan copies its input. -/
theorem subScGo_id (v : List Char) :
    ∀ (fuel : Nat) (cs : List Char), countOcc labelSC cs = 0 →
      subScGo v fuel cs = cs := by
  intro fuel
  induction fuel with
  | zero => intro cs _; rfl
  | succ fuel ih =>
    intro cs h
    match cs with
    | [] => rfl
    | c :: cs' =>
      have h0 : labelSC.isPrefixOf (c :: cs') = false :=
        (countOcc_zero_iff (by decide) (c :: cs')).mp h 0
      have hcs' : countOcc labelSC cs' = 0 := by
        rw [countOcc_zero_iff (by decide)] at h ⊢
        intro k
        exact h (k + 1)
      simp only [subScGo]
      rw [if_neg (by simp [h0])]
      rw [ih cs' hcs']

/-- Decomposition of the block-rewrite scan on a text with exactly one
label occurrence: the scan copies the label-free prefix, rewrites the
single block and copies the remainder of the matched line onward. -/
theorem subScGo_decomp (v' : List Char) :
    ∀ (fuel : Nat) (cs : List Char), cs.length + 1 ≤ fuel →
      countOcc labelSC cs = 1 →
      ∃ pre t0,
        cs = pre ++ labelSC ++ t0 ∧
        countOcc labelSC pre = 0 ∧
        countOcc labelSC t0 = 0 ∧
        subScGo v' fuel cs =
          pre ++ (scRepl v' ++
            ((t0.dropWhile isPySpace).dropWhile (fun d => d ≠ '\n'))) := by
  intro fuel
  induction fuel with
  | zero => intro cs hf _; omega
  | succ fuel ih =>
    intro cs hf h1
    match cs with
    | [] => simp [countOcc] at h1
    | c :: cs' =>
      by_cases hl : labelSC.isPrefixOf (c :: cs') = true
      · obtain ⟨t0, ht0⟩ := List.isPrefixOf_iff_prefix.mp hl
        have hcs'0 : countOcc labelSC cs' = 0 := by
          rw [countOcc, hl] at h1
          simpa using h1
        have ht00 : countOcc labelSC t0 = 0 := by
          have : t0 = cs'.drop (labelSC.length - 1) := by
            have h2 := congrArg (List.drop labelSC.length) ht0
            rw [List.drop_left] at h2
            rw [h2]
            rfl
          rw [this]
          exact countOcc_zero_drop (by decide) hcs'0 _
        refine ⟨[], t0, by simpa using ht0.symm, rfl, ht00, ?_⟩
        simp only [subScGo]
        rw [if_pos hl]
        have hdrop2 : (c :: cs').drop labelSC.length = t0 := by
          rw [← ht0]
          exact List.drop_left _ _
        rw [hdrop2]
        have hrest0 : countOcc labelSC
            ((t0.dropWhile isPySpace).dropWhile (fun d => d ≠ '\n')) = 0 :=
          countOcc_zero_dropWhile (by decide) _
            (countOcc_zero_dropWhile (by decide) _ ht00)
        rw [subScGo_id v' fuel _ hrest0]
        simp
      · have h0 : labelSC.isPrefixOf (c :: cs') = false := by
          cases hx : labelSC.isPrefixOf (c :: cs')
          · rfl
          · exact absurd hx hl
        have hcs'1 : countOcc labelSC cs' = 1 := by
          rw [countOcc, h0] at h1
          simpa using h1
        have hf' : cs'.length + 1 ≤ fuel := by
          simp only [List.length_cons] at hf
          omega
        obtain ⟨pre', t0, hcseq, hpre0, ht00, hres⟩ := ih cs' hf' hcs'1
        refine ⟨c :: pre', t0, ?_, ?_, ht00, ?_⟩
        · rw [List.cons_append, List.cons_append, ← hcseq]
        · rw [countOcc]
          have hnp : labelSC.isPrefixOf (c :: pre') = false := by
            cases hp2 : labelSC.isPrefixOf (c :: pre')
            · rfl
            · exfalso
              have hpre2 := List.isPrefixOf_iff_prefix.mp hp2
              have hsub : (c :: pre') <+: (c :: cs') :=
                (List.prefix_cons_inj c).mpr
                  ⟨labelSC ++ t0, by rw [← List.append_assoc]; exact hcseq.symm⟩
              have := List.isPrefixOf_iff_prefix.mpr (hpre2.trans hsub)
              rw [this] at h0
              cases h0
          rw [hnp]
          simpa using hpre0
        · simp only [subScGo]
          rw [if_neg (by simp [h0])]
          rw [hres]
          rfl

/-- On a text with exactly one label occurrence and a label-free value,
the block-rewrite scan returns a text with exactly one label occurrence,
and the text changes. -/
theorem subSc_count_single (v' t : List Char)
    (hv : countOcc labelSC v' = 0) (h1 : countOcc labelSC t = 1) :
    countOcc labelSC (subScGo v' (t.length + 1) t) = 1 ∧
    subScGo v' (t.length + 1) t ≠ t := by
  obtain ⟨pre, t0, hteq, hpre0, ht00, hres⟩ :=
    subScGo_decomp v' (t.length + 1) t (Nat.le_refl _) h1
  have hrest0 : countOcc labelSC
      ((t0.dropWhile isPySpace).dropWhile (fun d => d ≠ '\n')) = 0 :=
    countOcc_zero_dropWhile (by decide) _
      (countOcc_zero_dropWhile (by decide) _ ht00)
  constructor
  · rw [hres]
    rw [countOcc_append_of_no_left]
    · exact countOcc_scRepl_append v' _ hv hrest0
    · intro q hq
      by_cases hlen : labelSC.length ≤ (pre.drop q).length
      · cases hp : labelSC.isPrefixOf (pre.drop q ++
            (scRepl v' ++ ((t0.dropWhile isPySpace).dropWhile (fun d => d ≠ '\n'))))
        · rfl
        · exfalso
          have hpre2 := isPrefixOf_left_of_le _ hp hlen
          have hno := (countOcc_zero_iff (by decide) pre).mp hpre0 q
          rw [hno] at hpre2
          cases hpre2
      · have hshape : scRepl v' ++ ((t0.dropWhile isPySpace).dropWhile (fun d => d ≠ '\n')) =
            labelSC ++ (('\n' :: '{' :: (v' ++ ['}', '\n', '\n'])) ++
              ((t0.dropWhile isPySpace).dropWhile (fun d => d ≠ '\n'))) := by
          simp [scRepl]
        rw [hshape]
        refine no_straddle_occurrence (by decide) _ ?_ ?_
        · simp only [List.length_drop]
          omega
        · simp only [List.length_drop] at hlen ⊢
          omega
  · rw [hres, hteq]
    intro he
    rw [List.append_assoc] at he
    have he2 := List.append_cancel_left he
    have hscShape : scRepl v' ++ ((t0.dropWhile isPySpace).dropWhile (fun d => d ≠ '\n')) =
        labelSC ++ (('\n' :: '{' :: (v' ++ ['}', '\n', '\n'])) ++
          ((t0.dropWhile isPySpace).dropWhile (fun d => d ≠ '\n'))) := by
      simp [scRepl]
    rw [hscShape] at he2
    have he3 := List.append_cancel_left he2
    have ht0split : t0 = t0.takeWhile isPySpace ++
        (((t0.dropWhile isPySpace).takeWhile (fun d => d ≠ '\n')) ++
          ((t0.dropWhile isPySpace).dropWhile (fun d => d ≠ '\n'))) := by
      rw [List.takeWhile_append_dropWhile]
      rw [List.takeWhile_append_dropWhile]
    have he4 : ('\n' :: '{' :: (v' ++ ['}', '\n', '\n'])) ++
        ((t0.dropWhile isPySpace).dropWhile (fun d => d ≠ '\n')) =
        (t0.takeWhile isPySpace ++
          ((t0.dropWhile isPySpace).takeWhile (fun d => d ≠ '\n'))) ++
        ((t0.dropWhile isPySpace).dropWhile (fun d => d ≠ '\n')) := by
      rw [List.append_assoc]
      exact he3.trans ht0split
    have hmid_eq := List.append_cancel_right he4
    by_cases hlr : ((t0.dropWhile isPySpace).takeWhile (fun d => d ≠ '\n')) = []
    · rw [hlr, List.append_nil] at hmid_eq
      have hmem : '{' ∈ t0.takeWhile isPySpace := by
        rw [← hmid_eq]
        exact List.mem_cons_of_mem _ (List.mem_cons_self _ _)
      have := List.mem_takeWhile_imp hmem
      exact absurd this (by decide)
    · have hlast1 : ('\n' :: '{' :: (v' ++ ['}', '\n', '\n'])).getLast? = some '\n' := by
        have hsh : ('\n' :: '{' :: (v' ++ ['}', '\n', '\n'])) =
            ('\n' :: '{' :: (v' ++ ['}', '\n'])) ++ ['\n'] := by
          simp
        rw [hsh]
        exact List.getLast?_concat _
      have hlast2 : (t0.takeWhile isPySpace ++
          ((t0.dropWhile isPySpace).takeWhile (fun d => d ≠ '\n'))).getLast? =
          ((t0.dropWhile isPySpace).takeWhile (fun d => d ≠ '\n')).getLast? :=
        List.getLast?_append_of_ne_nil _ hlr
      rw [hmid_eq, hlast2] at hlast1
      have hmem := List.mem_of_mem_getLast? hlast1
      have := List.mem_takeWhile_imp hmem
      simp at this

/-- C3 (amended): for a template holding exactly one labeled
`STORY_CORE:` block and no `{{STORY_CORE}}` placeholder, injecting a
non-blank value that is itself free of the label yields a prompt with
exactly one labeled block. -/
theorem c3_single_block_one_label (t v : String)
    (hph : countOcc phCore t.data = 0)
    (hlab : countOcc labelSC t.data = 1)
    (hval : countOcc labelSC v.data = 0)
    (hnb : pyStrip v.data ≠ []) :
    countOcc labelSC (inject_story_core_into_prompt t v).data = 1 := by
  have hval' : countOcc labelSC (pyRstrip v.data) = 0 :=
    countOcc_zero_of_isPrefix (by decide) (pyRstrip_isPrefix v.data) hval
  obtain ⟨hc1, hc2⟩ := subSc_count_single (pyRstrip v.data) t.data hval' hlab
  have hphF : containsSub t.data phCore = false := (containsSub_false_iff _ _).mpr hph
  have hlabT : containsSub t.data labelSC = true := by
    cases hx : containsSub t.data labelSC
    · exfalso
      have := (containsSub_false_iff _ _).mp hx
      omega
    · rfl
  show countOcc labelSC (injectCoreL t.data v.data) = 1
  simp only [injectCoreL]
  rw [if_neg hnb, if_neg (by simp [hphF]), if_pos (by simp [hlabT]), if_pos hc2]
  exact hc1

/-- Witness for `c3_single_block_one_label` at a one-block template. -/
theorem c3_single_block_one_label_witness :
    countOcc phCore "PRE\nSTORY_CORE:\nold\nPOST".data = 0 ∧
    countOcc labelSC "PRE\nSTORY_CORE:\nold\nPOST".data = 1 ∧
    countOcc labelSC "new".data = 0 ∧
    pyStrip ("new" : String).data ≠ [] ∧
    countOcc labelSC
      (inject_story_core_into_prompt "PRE\nSTORY_CORE:\nold\nPOST" "new").data = 1 :=
  ⟨by decide, by decide, by decide, by decide,
   c3_single_block_one_label "PRE\nSTORY_CORE:\nold\nPOST" "new"
     (by decide) (by decide) (by decide) (by decide)⟩

end Yt3
